import Mathlib

/-!
# Verification of the route-segment core

A shallow embedding, at the level of character lists, of the route-segment
algebra implemented by the pipeline scripts:

* `3_simplified_trip.py` — the integer duration codec
  (`convert_time_to_minutes` / `convert_minutes_to_time`) and the segment
  simplifier `simplify_trip`;
* `4_ascending_descending.py` — the float duration codec
  (`parse_duration_to_minutes` / `format_minutes_to_string`) and the midpoint
  splitter `split_route_in_half`;
* `5_transfer_counting.py` — mode extraction and transition counting
  (`extract_transitions`).

Modelling conventions:

* Python floats are modelled by `ℚ`.  Every numeric value the pipeline
  produces is an integer or a half-integer of moderate size, on which IEEE
  double arithmetic (sums, halving, comparison against the literal epsilons)
  is exact, so the rational model is faithful on the reachable values.
* Regex searches are modelled by explicit scanners over `List Char`.  For the
  patterns in the source (`(\d+)\s*시간`, `(\d+)\s*분`, `(\d+\.?\d*)\s*분`,
  `\w+\(\d+\.?\d*[^\)]+\)`, `\(([^)]+)\)`, `(\w+)\((.+)\)`,
  `(\w+)\(\d+.*?\)`) greedy scanning without backtracking is equivalent to
  the regex engine's backtracking semantics; where a residual backtracking
  case exists it is resolved explicitly in the definition with a comment.
* Python's `\w` (Unicode word characters) is modelled over the alphabet the
  pipeline actually uses: ASCII alphanumerics, `_`, and Hangul syllables.
  `\s` is modelled by `Char.isWhitespace`, `\d` by `Char.isDigit`.
-/

set_option maxHeartbeats 1000000

namespace TripCore

/-! ## Character classes -/

/-- Python regex `\d` (on the pipeline's alphabet: ASCII digits). -/
def isDigitCh (c : Char) : Bool := c.isDigit

/-- Hangul syllable block, U+AC00 to U+D7A3. -/
def isHangul (c : Char) : Bool := 0xAC00 ≤ c.toNat && c.toNat ≤ 0xD7A3

/-- Python regex `\w`, restricted to the alphabet occurring in the pipeline:
ASCII alphanumerics, underscore, Hangul syllables. -/
def isWordCh (c : Char) : Bool := c.isAlphanum || c == '_' || isHangul c

/-- Python regex `\s` (on the pipeline's alphabet). -/
def isWsCh (c : Char) : Bool := c.isWhitespace

/-! ## Decimal digits and number rendering -/

/-- The character of a decimal digit. -/
def digitChar : ℕ → Char
  | 0 => '0' | 1 => '1' | 2 => '2' | 3 => '3' | 4 => '4'
  | 5 => '5' | 6 => '6' | 7 => '7' | 8 => '8' | _ => '9'

/-- The value of a decimal digit character. -/
def charVal (c : Char) : ℕ := c.toNat - 48

/-- Value of a run of decimal digit characters (most significant first),
as Python's `int(...)` / `float(...)` read a captured digit group. -/
def digitsToNat (l : List Char) : ℕ := l.foldl (fun a c => 10 * a + charVal c) 0

/-- Fuelled decimal rendering of a natural number (Python `str(int)`,
no sign, no leading zeros).  Structural in the fuel so that the kernel
can evaluate it. -/
def natToCharsF : ℕ → ℕ → List Char
  | 0, _ => []
  | f + 1, n => if n < 10 then [digitChar n] else natToCharsF f (n / 10) ++ [digitChar (n % 10)]

/-- Decimal rendering of a natural number. -/
def natToChars (n : ℕ) : List Char := natToCharsF (n + 1) n

/-- Python `str` of an `int` (f-string rendering of an integer). -/
def intToChars (i : ℤ) : List Char :=
  if i < 0 then '-' :: natToChars i.natAbs else natToChars i.toNat

/-! ## Substring containment (Python `pat in s`) -/

/-- Python's substring test `pat in s`. -/
def containsSub (pat : List Char) : List Char → Bool
  | [] => pat.isEmpty
  | c :: cs => pat.isPrefixOf (c :: cs) || containsSub pat cs

/-! ## The regex searches of the duration codecs

`re.search(r'(\d+)\s*시간', s)` and `re.search(r'(\d+)\s*분', s)` are
leftmost searches for a digit run, optional whitespace, then a literal.
Greedy matching of `\d+` and `\s*` is equivalent to the engine's
backtracking here: shortening `\d+` leaves a digit in front, which matches
neither `\s` nor the literal's first character, and the literals do not
start with whitespace. -/

/-- Attempt the pattern `(\d+)\s*lit` anchored at the start of `s`,
returning the captured number. -/
def matchNumThen (lit s : List Char) : Option ℕ :=
  let ds := s.takeWhile isDigitCh
  if ds = [] then none
  else if lit.isPrefixOf ((s.dropWhile isDigitCh).dropWhile isWsCh) then
    some (digitsToNat ds)
  else none

/-- `re.search(r'(\d+)\s*lit', s)`: leftmost match of `matchNumThen`. -/
def searchNumThen (lit : List Char) : List Char → Option ℕ
  | [] => none
  | c :: cs =>
    match matchNumThen lit (c :: cs) with
    | some n => some n
    | none => searchNumThen lit cs

/-- Attempt the pattern `(\d+\.?\d*)\s*분` anchored at the start of `s`,
returning the captured (possibly fractional) number as Python's
`float(group)` reads it.  When the optional dot was consumed and the match
fails, dropping the dot cannot help: `.` matches neither `\s` nor `분`,
so no backtracking case remains. -/
def matchFracMin (s : List Char) : Option ℚ :=
  let d1 := s.takeWhile isDigitCh
  if d1 = [] then none
  else
    let r1 := s.dropWhile isDigitCh
    if r1.head? = some '.' then
      let d2 := r1.tail.takeWhile isDigitCh
      if ['분'].isPrefixOf ((r1.tail.dropWhile isDigitCh).dropWhile isWsCh) then
        some ((digitsToNat d1 : ℚ) + (digitsToNat d2 : ℚ) / 10 ^ d2.length)
      else none
    else if ['분'].isPrefixOf (r1.dropWhile isWsCh) then some ((digitsToNat d1 : ℚ))
    else none

/-- `re.search(r'(\d+\.?\d*)\s*분', s)`: leftmost match of `matchFracMin`. -/
def searchFracMin : List Char → Option ℚ
  | [] => none
  | c :: cs =>
    match matchFracMin (c :: cs) with
    | some q => some q
    | none => searchFracMin cs

/-! ## The integer duration codec (`3_simplified_trip.py`) -/

/-- `convert_time_to_minutes` on character lists.  `hours` is set by
`re.search(r'(\d+)\s*시간', ...)` under the guard `'시간' in time_str`;
`minutes` by `re.search(r'(\d+\.?\d*)\s*분', ...)` under `'분' in time_str`.
The return is Python's `int(hours * 60 + minutes)`; the value is always
nonnegative, so `int` truncation is the floor. -/
def convCh (s : List Char) : ℕ :=
  let hours : ℕ :=
    if containsSub ['시', '간'] s then (searchNumThen ['시', '간'] s).getD 0 else 0
  let minutes : ℚ :=
    if containsSub ['분'] s then (searchFracMin s).getD 0 else 0
  (⌊(hours : ℚ) * 60 + minutes⌋).toNat

/-- `convert_time_to_minutes`, the integer-accumulating parse of the
duration codec. -/
def convert_time_to_minutes (s : String) : ℕ := convCh s.data

/-- `convert_minutes_to_time` on character lists: `minutes // 60` hours,
`minutes % 60` minutes, rendered as `{h}시간 {m}분`, `{h}시간` or `{m}분`. -/
def convMinCh (m : ℕ) : List Char :=
  let hours := m / 60
  let mins := m % 60
  if 0 < hours ∧ 0 < mins then
    natToChars hours ++ '시' :: '간' :: ' ' :: natToChars mins ++ ['분']
  else if 0 < hours then natToChars hours ++ ['시', '간']
  else natToChars mins ++ ['분']

/-- `convert_minutes_to_time`, the integer-accumulating format of the
duration codec. -/
def convert_minutes_to_time (m : ℕ) : String := ⟨convMinCh m⟩

/-! ## The segment simplifier (`3_simplified_trip.py`)

`re.findall(r'(\w+\(\d+\.?\d*[^\)]+\))', trip)` finds, leftmost-first and
non-overlapping, a maximal word run, `(`, and then an inner text running to
the first following `)`.  Writing `t` for that inner text, backtracking
semantics make the attempt succeed exactly when `t` starts with a digit and
has at least two characters: `\d+` can always shrink to the single leading
digit, leaving a non-empty `[^\)]+`; conversely a one-character or
non-digit-initial `t` admits no decomposition.  On failure the scan
advances one character. -/

/-- Fuelled scanner for the simplifier's `re.findall`, returning the full
matched tokens. -/
def findSegsF : ℕ → List Char → List (List Char)
  | 0, _ => []
  | _ + 1, [] => []
  | f + 1, c :: cs =>
    if isWordCh c then
      let r0 := (c :: cs).dropWhile isWordCh
      if r0.head? = some '(' then
        let t := r0.tail.takeWhile (fun x => !(x == ')'))
        let r2 := r0.tail.dropWhile (fun x => !(x == ')'))
        if r2.head? = some ')' then
          if 2 ≤ t.length ∧ t.head?.any isDigitCh then
            ((c :: cs).takeWhile isWordCh ++ '(' :: t ++ [')']) :: findSegsF f r2.tail
          else findSegsF f cs
        else findSegsF f cs
      else findSegsF f cs
    else findSegsF f cs

/-- The token list of `re.findall(r'(\w+\(\d+\.?\d*[^\)]+\))', trip)`. -/
def findSegs (l : List Char) : List (List Char) := findSegsF l.length l

/-- `re.match(r'(\w+)\((.+)\)', segment)`: a word run, `(`, then a greedy
`(.+)` followed by `)` — the capture runs to the last `)`, but `.` cannot
cross a newline, so the `)` must lie on the first line after the `(`. -/
def matchModeTime (seg : List Char) : Option (List Char × List Char) :=
  let w := seg.takeWhile isWordCh
  if w = [] then none
  else
    let r0 := seg.dropWhile isWordCh
    if r0.head? = some '(' then
      let line := r0.tail.takeWhile (fun x => !(x == '\n'))
      let rev := line.reverse.dropWhile (fun x => !(x == ')'))
      if rev.head? = some ')' then
        if rev.tail = [] then none else some (w, rev.tail.reverse)
      else none
    else none

/-- The mode-name characters `"walking"`. -/
def walkingCh : List Char := ['w', 'a', 'l', 'k', 'i', 'n', 'g']

/-- Flushing the accumulator: Python appends
`f"{current_mode}({convert_minutes_to_time(total_time)})"` when a mode is
accumulating, and nothing otherwise. -/
def flushOut : Option (List Char) → ℕ → List (List Char)
  | none, _ => []
  | some m, tt => [m ++ '(' :: convMinCh tt ++ [')']]

/-- The indexed loop of `simplify_trip` over the found tokens: `n` is the
length of the full token list, `i` the current index, `cm` / `tt` the
accumulating mode and its total minutes, `out` the emitted tokens.  A token
the inner `re.match` rejects is skipped (with a warning) but still counts
in the indexing. -/
def simplifyGo (n : ℕ) :
    List (List Char) → ℕ → Option (List Char) → ℕ → List (List Char) → List (List Char)
  | [], _, cm, tt, out => out ++ flushOut cm tt
  | seg :: rest, i, cm, tt, out =>
    match matchModeTime seg with
    | none => simplifyGo n rest (i + 1) cm tt out
    | some (mode, time) =>
      if mode = walkingCh then
        if i = 0 ∨ i = n - 1 then
          simplifyGo n rest (i + 1) none 0 (out ++ flushOut cm tt ++ [seg])
        else simplifyGo n rest (i + 1) cm (tt + convCh time) out
      else if cm = some mode then simplifyGo n rest (i + 1) cm (tt + convCh time) out
      else simplifyGo n rest (i + 1) (some mode) (convCh time) (out ++ flushOut cm tt)

/-- Python `" -> ".join(...)` on character lists. -/
def joinArrow : List (List Char) → List Char
  | [] => []
  | [x] => x
  | x :: y :: rest => x ++ ' ' :: '-' :: '>' :: ' ' :: joinArrow (y :: rest)

/-- `simplify_trip`: scan the found tokens and re-join the emitted segments
with ` -> `. -/
def simplify_trip (trip : String) : String :=
  ⟨joinArrow (simplifyGo (findSegs trip.data).length (findSegs trip.data) 0 none 0 [])⟩

/-! ## The float duration codec (`4_ascending_descending.py`) -/

/-- `parse_duration_to_minutes` on character lists:
`re.search(r'(\d+)\s*시간', ...)` and `re.search(r'(\d+)\s*분', ...)`,
missing group defaulting to `0.0`; returns `hours * 60.0 + mins`.
Note both captures are integer digit runs (`\d+`), unlike the
integer-accumulating variant's fractional minute capture. -/
def parseDurCh (s : List Char) : ℚ :=
  ((searchNumThen ['시', '간'] s).getD 0 : ℕ) * 60 + ((searchNumThen ['분'] s).getD 0 : ℕ)

/-- `parse_duration_to_minutes`, the float-preserving parse of the
duration codec. -/
def parse_duration_to_minutes (s : String) : ℚ := parseDurCh s.data

/-- The decimal digits of the fractional part of a rational in `[0, 1)`,
as Python's shortest-round-trip float `repr` prints them for the values
with short exact decimal expansions that this pipeline produces.  Fuelled;
the fuel never runs out on the pipeline's dyadic values. -/
def fracDigits : ℕ → ℚ → List Char
  | 0, _ => []
  | f + 1, q =>
    if q = 0 then []
    else digitChar (⌊q * 10⌋).toNat :: fracDigits f (q * 10 - (⌊q * 10⌋ : ℚ))

/-- Python's f-string rendering of a nonnegative float value: integer part,
a dot, then the fractional digits (a sole `0` when the value is whole). -/
def pyFloatReprNN (q : ℚ) : List Char :=
  natToChars (⌊q⌋).toNat ++
    '.' :: (if q - (⌊q⌋ : ℚ) = 0 then ['0'] else fracDigits 30 (q - (⌊q⌋ : ℚ)))

/-- Python's f-string rendering of a float value. -/
def pyFloatRepr (q : ℚ) : List Char :=
  if q < 0 then '-' :: pyFloatReprNN (-q) else pyFloatReprNN q

/-- `format_minutes_to_string` on character lists: `h = int(minutes // 60)`,
`m = minutes % 60` (Python float floor-division and modulus), rendered as
`{h}시간 {m}분`, `{h}시간` or `{m}분` with `m` printed as a float. -/
def formatMinCh (q : ℚ) : List Char :=
  let h : ℤ := ⌊q / 60⌋
  let m : ℚ := q - 60 * (⌊q / 60⌋ : ℚ)
  if 0 < h ∧ 0 < m then
    intToChars h ++ '시' :: '간' :: ' ' :: pyFloatRepr m ++ ['분']
  else if 0 < h then intToChars h ++ ['시', '간']
  else pyFloatRepr m ++ ['분']

/-- `format_minutes_to_string`, the float-preserving format of the
duration codec. -/
def format_minutes_to_string (q : ℚ) : String := ⟨formatMinCh q⟩

/-! ## The midpoint splitter (`4_ascending_descending.py`) -/

/-- Python `route_str.split("->")`: split on the literal two-character
delimiter, leftmost-first, non-overlapping. -/
def splitArrow : List Char → List (List Char)
  | [] => [[]]
  | '-' :: '>' :: rest => [] :: splitArrow rest
  | c :: rest =>
    match splitArrow rest with
    | [] => [[c]]
    | s :: ss => (c :: s) :: ss

/-- Python `str.strip()`: remove whitespace from both ends. -/
def stripWs (l : List Char) : List Char :=
  ((l.dropWhile isWsCh).reverse.dropWhile isWsCh).reverse

/-- `re.search(r"\(([^)]+)\)", step)`: the leftmost `(` that is followed by
at least one non-`)` character and then a `)`; returns the enclosed text. -/
def searchParen : List Char → Option (List Char)
  | [] => none
  | '(' :: r =>
    let t := r.takeWhile (fun c => !(c == ')'))
    if t ≠ [] ∧ r.dropWhile (fun c => !(c == ')')) ≠ [] then some t
    else searchParen r
  | _ :: r => searchParen r

/-- The duration, in minutes, the splitter attributes to one step:
the parsed parenthesised text, or `0.0` when there is none. -/
def stepDur (step : List Char) : ℚ :=
  match searchParen step with
  | some dtext => parseDurCh dtext
  | none => 0

/-- `steps_with_minutes`: the non-empty stripped chunks between `->`
delimiters, each paired with its duration. -/
def parseSteps (route : List Char) : List (List Char × ℚ) :=
  (((splitArrow route).map stripWs).filter (fun s => s ≠ [])).map fun s => (s, stepDur s)

/-- `total_minutes` of a route string as the splitter computes it. -/
def routeTotal (route : String) : ℚ :=
  ((parseSteps route.data).map Prod.snd).sum

/-- The text of the partial step created when a step is split at the
midpoint: base mode name (text before the first `(`, stripped), with the
formatted partial duration. -/
def mkSplitText (tx : List Char) (q : ℚ) : List Char :=
  stripWs (tx.takeWhile (fun c => !(c == '('))) ++ '(' :: formatMinCh q ++ [')']

/-- The scanning loop of `split_route_in_half`: state `accumulated`,
`half_reached`, and the `ascending` / `descending` lists under
construction (each entry keeps the step text and its minutes). -/
def splitGo (half : ℚ) :
    List (List Char × ℚ) → ℚ → Bool → List (List Char × ℚ) → List (List Char × ℚ) →
    List (List Char × ℚ) × List (List Char × ℚ)
  | [], _, _, asc, desc => (asc, desc)
  | (tx, d) :: rest, acc, hr, asc, desc =>
    if hr then splitGo half rest acc hr asc (desc ++ [(tx, d)])
    else if acc + d < half then splitGo half rest (acc + d) false (asc ++ [(tx, d)]) desc
    else if |acc + d - half| < 1 / 1000000000 then
      splitGo half rest (acc + d) true (asc ++ [(tx, d)]) desc
    else
      let remain := half - acc
      if remain < 0 then splitGo half rest acc true asc (desc ++ [(tx, d)])
      else
        splitGo half rest acc true (asc ++ [(mkSplitText tx remain, remain)])
          (if d - remain > 0 then desc ++ [(mkSplitText tx (d - remain), d - remain)] else desc)

/-- The ascending and descending segment lists (with minutes) that
`split_route_in_half` builds before serialising. -/
def splitHalves (route : String) : List (List Char × ℚ) × List (List Char × ℚ) :=
  splitGo (routeTotal route / 2) (parseSteps route.data) 0 false [] []

/-- `split_route_in_half`: the pair of serialised halves, the descending
half being the sentinel `"N/A"` when its list is empty. -/
def split_route_in_half (route : String) : String × String :=
  (⟨joinArrow ((splitHalves route).1.map Prod.fst)⟩,
    if (splitHalves route).2 = [] then "N/A"
    else ⟨joinArrow ((splitHalves route).2.map Prod.fst)⟩)

/-! ## The transition counter (`5_transfer_counting.py`) -/

/-- Fuelled scanner for `re.findall(r'(\w+)\(\d+.*?\)', row)`: a maximal
word run, `(`, at least one digit, then lazily anything up to a `)` on the
same line (`.` does not cross a newline); the capture is the word run.
On failure the scan advances one character; on success it continues after
the `)`. -/
def extractModesF : ℕ → List Char → List (List Char)
  | 0, _ => []
  | _ + 1, [] => []
  | f + 1, c :: cs =>
    if isWordCh c then
      match (c :: cs).dropWhile isWordCh with
      | '(' :: r =>
        let ds := r.takeWhile isDigitCh
        if ds ≠ [] then
          match (r.dropWhile isDigitCh).dropWhile (fun x => !(x == ')') && !(x == '\n')) with
          | ')' :: rest => (c :: cs).takeWhile isWordCh :: extractModesF f rest
          | _ => extractModesF f cs
        else extractModesF f cs
      | _ => extractModesF f cs
    else extractModesF f cs

/-- The ordered mode tokens the transition counter extracts from one
route-half string. -/
def extractModes (l : List Char) : List (List Char) := extractModesF l.length l

/-- The transition keys one row emits: `"{m_i} -> {m_(i+1)}"` for each
adjacent pair of extracted modes. -/
def rowTransitions (s : String) : List (List Char) :=
  let modes := extractModes s.data
  (modes.zip modes.tail).map fun p => p.1 ++ ' ' :: '-' :: '>' :: ' ' :: p.2

/-- `extract_transitions` over a column of rows, as the count the final
`Counter` assigns to a transition key: each row contributes one to the key
per adjacent pair realising it. -/
def extract_transitions (rows : List String) (key : List Char) : ℕ :=
  (rows.flatMap rowTransitions).count key

/-! ## Invariants of the simplifier's tokens -/

/-- The mode name of a token: its leading word-character run (the capture
of `(\w+)` in the simplifier's inner match). -/
def tokMode (tok : List Char) : List Char := tok.takeWhile isWordCh

/-- The shape of every token the simplifier's `findall` produces: a
non-empty word run, `(`, an inner text of length at least two that starts
with a digit and contains no `)`, then `)`. -/
def GoodTok (tok : List Char) : Prop :=
  ∃ w t, tok = w ++ '(' :: t ++ [')'] ∧ w ≠ [] ∧ (∀ c ∈ w, isWordCh c = true) ∧
    2 ≤ t.length ∧ (∀ c ∈ t, c ≠ ')') ∧ t.head?.any isDigitCh = true

/-- The shape of every token the simplifier emits: a `findall` token with a
newline-free inner text which, for a non-walking mode, is the canonical
formatted form of its own parsed minutes. -/
def TokOK (tok : List Char) : Prop :=
  ∃ w t, tok = w ++ '(' :: t ++ [')'] ∧ w ≠ [] ∧ (∀ c ∈ w, isWordCh c = true) ∧
    2 ≤ t.length ∧ (∀ c ∈ t, c ≠ ')') ∧ t.head?.any isDigitCh = true ∧
    '\n' ∉ t ∧ (w ≠ walkingCh → t = convMinCh (convCh t))

/-- In the token list `l`, a `walking` token occurs only at position `0`. -/
def WalkOnlyFirst (l : List (List Char)) : Prop :=
  ∀ k, k < l.length → tokMode (l.getD k []) = walkingCh → k = 0

/-- Adjacent non-walking tokens of `l` carry distinct modes. -/
def AdjOK (l : List (List Char)) : Prop :=
  ∀ k, k + 1 < l.length → tokMode (l.getD k []) ≠ walkingCh →
    tokMode (l.getD (k + 1) []) ≠ walkingCh →
    tokMode (l.getD k []) ≠ tokMode (l.getD (k + 1) [])

/-- The invariant of simplified output: every token is well-shaped,
`walking` occurs only at the first or last position, and adjacent
non-walking modes are distinct. -/
def SimpOut (l : List (List Char)) : Prop :=
  (∀ tok ∈ l, TokOK tok) ∧
  (∀ k, k < l.length → tokMode (l.getD k []) = walkingCh → k = 0 ∨ k = l.length - 1) ∧
  AdjOK l

/-! # Lemmas

## Decimal digits -/

theorem charVal_digitChar {d : ℕ} (h : d < 10) : charVal (digitChar d) = d := by
  interval_cases d <;> rfl

theorem isDigitCh_digitChar {d : ℕ} (h : d < 10) : isDigitCh (digitChar d) = true := by
  interval_cases d <;> rfl

theorem digitsToNat_append_digit (l : List Char) (c : Char) :
    digitsToNat (l ++ [c]) = 10 * digitsToNat l + charVal c := by
  simp [digitsToNat, List.foldl_append]

theorem natToCharsF_irrel : ∀ f f' n, n < f → n < f' → natToCharsF f n = natToCharsF f' n := by
  intro f
  induction f with
  | zero => intro f' n h; omega
  | succ f ih =>
    intro f' n hf hf'
    match f', hf' with
    | f' + 1, hf' =>
      show natToCharsF (f + 1) n = natToCharsF (f' + 1) n
      by_cases h10 : n < 10
      · simp [natToCharsF, h10]
      · have hdiv : n / 10 < n := Nat.div_lt_self (by omega) (by omega)
        simp only [natToCharsF, if_neg h10]
        rw [ih f' (n / 10) (by omega) (by omega)]

theorem natToChars_spec (n : ℕ) :
    natToChars n ≠ [] ∧ (∀ c ∈ natToChars n, isDigitCh c = true) ∧
      digitsToNat (natToChars n) = n := by
  induction n using Nat.strong_induction_on with
  | _ n ih =>
    by_cases h10 : n < 10
    · refine ⟨by simp [natToChars, natToCharsF, h10], ?_, ?_⟩
      · intro c hc
        simp only [natToChars, natToCharsF, if_pos h10, List.mem_singleton] at hc
        subst hc; exact isDigitCh_digitChar h10
      · simp [natToChars, natToCharsF, if_pos h10, digitsToNat, charVal_digitChar h10]
    · have hdiv : n / 10 < n := Nat.div_lt_self (by omega) (by omega)
      have hrw : natToChars n = natToChars (n / 10) ++ [digitChar (n % 10)] := by
        show natToCharsF (n + 1) n = _
        simp only [natToCharsF, if_neg h10]
        rw [natToCharsF_irrel n (n / 10 + 1) (n / 10) (by omega) (by omega)]
        rfl
      obtain ⟨hne, hdig, hval⟩ := ih (n / 10) hdiv
      refine ⟨by simp [hrw], ?_, ?_⟩
      · intro c hc
        rw [hrw, List.mem_append, List.mem_singleton] at hc
        rcases hc with hc | hc
        · exact hdig c hc
        · subst hc; exact isDigitCh_digitChar (Nat.mod_lt _ (by omega))
      · rw [hrw, digitsToNat_append_digit, hval, charVal_digitChar (Nat.mod_lt _ (by omega))]
        omega

theorem natToChars_ne_nil (n : ℕ) : natToChars n ≠ [] := (natToChars_spec n).1

theorem natToChars_digit {n : ℕ} {c : Char} (h : c ∈ natToChars n) : isDigitCh c = true :=
  (natToChars_spec n).2.1 c h

theorem digitsToNat_natToChars (n : ℕ) : digitsToNat (natToChars n) = n :=
  (natToChars_spec n).2.2

/-! ## `takeWhile` / `dropWhile` over a block -/

theorem takeWhile_append_stop {p : Char → Bool} :
    ∀ (l₁ : List Char) (c : Char) (l₂ : List Char), (∀ x ∈ l₁, p x = true) → p c = false →
      (l₁ ++ c :: l₂).takeWhile p = l₁ := by
  intro l₁
  induction l₁ with
  | nil => intro c l₂ _ hc; simp [List.takeWhile_cons, hc]
  | cons a l ih =>
    intro c l₂ h1 hc
    have ha : p a = true := h1 a (by simp)
    simp only [List.cons_append, List.takeWhile_cons, ha, if_true]
    rw [ih c l₂ (fun x hx => h1 x (by simp [hx])) hc]

theorem dropWhile_append_stop {p : Char → Bool} :
    ∀ (l₁ : List Char) (c : Char) (l₂ : List Char), (∀ x ∈ l₁, p x = true) → p c = false →
      (l₁ ++ c :: l₂).dropWhile p = c :: l₂ := by
  intro l₁
  induction l₁ with
  | nil => intro c l₂ _ hc; simp [List.dropWhile_cons, hc]
  | cons a l ih =>
    intro c l₂ h1 hc
    have ha : p a = true := h1 a (by simp)
    simp only [List.cons_append, List.dropWhile_cons, ha, if_true]
    exact ih c l₂ (fun x hx => h1 x (by simp [hx])) hc

theorem mem_of_mem_dropWhile {p : Char → Bool} {c : Char} :
    ∀ {l : List Char}, c ∈ l.dropWhile p → c ∈ l := by
  intro l
  induction l with
  | nil => intro h; simp at h
  | cons a t ih =>
    intro h
    by_cases ha : p a
    · rw [List.dropWhile_cons, if_pos ha] at h
      exact List.mem_cons_of_mem a (ih h)
    · rw [List.dropWhile_cons, if_neg ha] at h
      exact h

/-! ## Substring containment -/

theorem isPrefixOf_append_self : ∀ (pat l : List Char), pat.isPrefixOf (pat ++ l) = true := by
  intro pat
  induction pat with
  | nil => intro l; simp [List.isPrefixOf]
  | cons c t ih => intro l; simp [List.isPrefixOf, ih]

theorem head_mem_of_isPrefixOf {x : Char} {xs l : List Char}
    (h : (x :: xs).isPrefixOf l = true) : x ∈ l := by
  cases l with
  | nil => simp [List.isPrefixOf] at h
  | cons c cs =>
    simp only [List.isPrefixOf, Bool.and_eq_true, beq_iff_eq] at h
    simp [h.1]

theorem containsSub_of_parts (a pat b : List Char) :
    containsSub pat (a ++ (pat ++ b)) = true := by
  induction a with
  | nil =>
    cases pat with
    | nil => cases b <;> simp [containsSub, List.isEmpty, List.isPrefixOf]
    | cons c t => simp [containsSub, isPrefixOf_append_self (c :: t) b]
  | cons c t ih => simp [containsSub, ih]

theorem containsSub_eq_false {x : Char} {xs l : List Char} (h : x ∉ l) :
    containsSub (x :: xs) l = false := by
  induction l with
  | nil => rfl
  | cons c cs ih =>
    have hxc : x ≠ c := by intro he; exact h (by simp [he])
    have : (x :: xs).isPrefixOf (c :: cs) = false := by
      simp [List.isPrefixOf, beq_eq_false_iff_ne, hxc]
    simp [containsSub, this, ih (fun hm => h (List.mem_cons_of_mem c hm))]

/-! ## The `(\d+)\s*lit` search -/

theorem matchNumThen_eq (lit s : List Char) :
    matchNumThen lit s =
      if s.takeWhile isDigitCh = [] then none
      else if lit.isPrefixOf ((s.dropWhile isDigitCh).dropWhile isWsCh) then
        some (digitsToNat (s.takeWhile isDigitCh))
      else none := rfl

theorem searchNumThen_cons_eq (lit : List Char) (c : Char) (cs : List Char) :
    searchNumThen lit (c :: cs) =
      match matchNumThen lit (c :: cs) with
      | some n => some n
      | none => searchNumThen lit cs := rfl

theorem searchNumThen_cons_nondigit {lit : List Char} {c : Char} {rest : List Char}
    (hc : isDigitCh c = false) : searchNumThen lit (c :: rest) = searchNumThen lit rest := by
  have hm : matchNumThen lit (c :: rest) = none := by
    rw [matchNumThen_eq]
    simp [List.takeWhile_cons, hc]
  rw [searchNumThen_cons_eq, hm]

theorem searchNumThen_exact {ds : List Char} (hne : ds ≠ [])
    (hall : ∀ c ∈ ds, isDigitCh c = true) {x : Char} {l' tail : List Char}
    (hxd : isDigitCh x = false) (hxw : isWsCh x = false) :
    searchNumThen (x :: l') (ds ++ x :: (l' ++ tail)) = some (digitsToNat ds) := by
  have h1 : (ds ++ x :: (l' ++ tail)).takeWhile isDigitCh = ds :=
    takeWhile_append_stop ds x (l' ++ tail) hall hxd
  have h2 : (ds ++ x :: (l' ++ tail)).dropWhile isDigitCh = x :: (l' ++ tail) :=
    dropWhile_append_stop ds x (l' ++ tail) hall hxd
  have h3 : (x :: (l' ++ tail)).dropWhile isWsCh = x :: (l' ++ tail) := by
    rw [List.dropWhile_cons, if_neg (by simp [hxw])]
  have h4 : (x :: l').isPrefixOf (x :: (l' ++ tail)) = true := by
    have h := isPrefixOf_append_self (x :: l') tail
    rwa [List.cons_append] at h
  have hmatch : matchNumThen (x :: l') (ds ++ x :: (l' ++ tail)) = some (digitsToNat ds) := by
    rw [matchNumThen_eq, h1, h2, h3, h4, if_neg hne, if_pos rfl]
  cases hd : ds with
  | nil => exact absurd hd hne
  | cons d ds' =>
    subst hd
    rw [List.cons_append] at hmatch ⊢
    rw [searchNumThen_cons_eq, hmatch]

theorem searchNumThen_skip_digits {x : Char} {l' : List Char} :
    ∀ (ds : List Char), (∀ c ∈ ds, isDigitCh c = true) →
      ∀ {c : Char}, isDigitCh c = false → isWsCh c = false → x ≠ c →
        ∀ (rest : List Char),
          searchNumThen (x :: l') (ds ++ c :: rest) = searchNumThen (x :: l') rest := by
  intro ds
  induction ds with
  | nil =>
    intro _ c hcd _ _ rest
    exact searchNumThen_cons_nondigit hcd
  | cons d ds' ih =>
    intro hall c hcd hcw hxc rest
    have hall' : ∀ a ∈ ds', isDigitCh a = true := fun a ha => hall a (by simp [ha])
    have h1 : ((d :: ds') ++ c :: rest).takeWhile isDigitCh = d :: ds' :=
      takeWhile_append_stop (d :: ds') c rest hall hcd
    have h2 : ((d :: ds') ++ c :: rest).dropWhile isDigitCh = c :: rest :=
      dropWhile_append_stop (d :: ds') c rest hall hcd
    have h3 : (c :: rest).dropWhile isWsCh = c :: rest := by
      rw [List.dropWhile_cons, if_neg (by simp [hcw])]
    have h4 : (x :: l').isPrefixOf (c :: rest) = false := by
      simp [List.isPrefixOf, beq_eq_false_iff_ne, hxc]
    have hmatch : matchNumThen (x :: l') ((d :: ds') ++ c :: rest) = none := by
      rw [matchNumThen_eq, h1, h2, h3, h4]
      simp
    rw [List.cons_append] at hmatch
    rw [List.cons_append, searchNumThen_cons_eq, hmatch, ih hall' hcd hcw hxc rest]

theorem searchNumThen_none {x : Char} {xs : List Char} :
    ∀ {l : List Char}, x ∉ l → searchNumThen (x :: xs) l = none := by
  intro l
  induction l with
  | nil => intro _; rfl
  | cons c cs ih =>
    intro h
    have hmatch : matchNumThen (x :: xs) (c :: cs) = none := by
      rw [matchNumThen_eq]
      by_cases hds : (c :: cs).takeWhile isDigitCh = []
      · simp [hds]
      · have hpre : (x :: xs).isPrefixOf
            (((c :: cs).dropWhile isDigitCh).dropWhile isWsCh) = false := by
          cases hb : (x :: xs).isPrefixOf (((c :: cs).dropWhile isDigitCh).dropWhile isWsCh) with
          | false => rfl
          | true =>
            have hx1 := head_mem_of_isPrefixOf hb
            exact absurd (mem_of_mem_dropWhile (mem_of_mem_dropWhile hx1)) h
        simp [hds, hpre]
    rw [searchNumThen_cons_eq, hmatch, ih (fun hm => h (List.mem_cons_of_mem c hm))]

/-! ## The `(\d+\.?\d*)\s*분` search -/

theorem matchFracMin_eq (s : List Char) :
    matchFracMin s =
      if s.takeWhile isDigitCh = [] then none
      else if (s.dropWhile isDigitCh).head? = some '.' then
        if ['분'].isPrefixOf
            ((((s.dropWhile isDigitCh).tail.dropWhile isDigitCh)).dropWhile isWsCh) then
          some ((digitsToNat (s.takeWhile isDigitCh) : ℚ) +
            (digitsToNat ((s.dropWhile isDigitCh).tail.takeWhile isDigitCh) : ℚ) /
              10 ^ ((s.dropWhile isDigitCh).tail.takeWhile isDigitCh).length)
        else none
      else if ['분'].isPrefixOf ((s.dropWhile isDigitCh).dropWhile isWsCh) then
        some ((digitsToNat (s.takeWhile isDigitCh) : ℚ))
      else none := rfl

theorem searchFracMin_cons_eq (c : Char) (cs : List Char) :
    searchFracMin (c :: cs) =
      match matchFracMin (c :: cs) with
      | some q => some q
      | none => searchFracMin cs := rfl

theorem searchFracMin_cons_nondigit {c : Char} {rest : List Char}
    (hc : isDigitCh c = false) : searchFracMin (c :: rest) = searchFracMin rest := by
  have hm : matchFracMin (c :: rest) = none := by
    rw [matchFracMin_eq]
    simp [List.takeWhile_cons, hc]
  rw [searchFracMin_cons_eq, hm]

theorem searchFracMin_exact {ds : List Char} (hne : ds ≠ [])
    (hall : ∀ c ∈ ds, isDigitCh c = true) (tail : List Char) :
    searchFracMin (ds ++ '분' :: tail) = some ((digitsToNat ds : ℚ)) := by
  have hbd : isDigitCh '분' = false := by decide
  have h1 : (ds ++ '분' :: tail).takeWhile isDigitCh = ds :=
    takeWhile_append_stop ds '분' tail hall hbd
  have h2 : (ds ++ '분' :: tail).dropWhile isDigitCh = '분' :: tail :=
    dropWhile_append_stop ds '분' tail hall hbd
  have h3 : ('분' :: tail).dropWhile isWsCh = '분' :: tail := by
    rw [List.dropWhile_cons, if_neg (by decide)]
  have hmatch : matchFracMin (ds ++ '분' :: tail) = some ((digitsToNat ds : ℚ)) := by
    rw [matchFracMin_eq, h1, h2, if_neg hne]
    have hh : ('분' :: tail).head? ≠ some '.' := by simp
    rw [if_neg hh, h3]
    have hp : ['분'].isPrefixOf ('분' :: tail) = true := by
      have h := isPrefixOf_append_self ['분'] tail
      rwa [List.cons_append, List.nil_append] at h
    rw [hp, if_pos rfl]
  cases hd : ds with
  | nil => exact absurd hd hne
  | cons d ds' =>
    subst hd
    rw [List.cons_append] at hmatch ⊢
    rw [searchFracMin_cons_eq, hmatch]

theorem searchFracMin_skip_digits :
    ∀ (ds : List Char), (∀ c ∈ ds, isDigitCh c = true) →
      ∀ {c : Char}, isDigitCh c = false → isWsCh c = false → c ≠ '.' → c ≠ '분' →
        ∀ (rest : List Char), searchFracMin (ds ++ c :: rest) = searchFracMin rest := by
  intro ds
  induction ds with
  | nil =>
    intro _ c hcd _ _ _ rest
    exact searchFracMin_cons_nondigit hcd
  | cons d ds' ih =>
    intro hall c hcd hcw hcdot hcbun rest
    have hall' : ∀ a ∈ ds', isDigitCh a = true := fun a ha => hall a (by simp [ha])
    have h1 : ((d :: ds') ++ c :: rest).takeWhile isDigitCh = d :: ds' :=
      takeWhile_append_stop (d :: ds') c rest hall hcd
    have h2 : ((d :: ds') ++ c :: rest).dropWhile isDigitCh = c :: rest :=
      dropWhile_append_stop (d :: ds') c rest hall hcd
    have h3 : (c :: rest).dropWhile isWsCh = c :: rest := by
      rw [List.dropWhile_cons, if_neg (by simp [hcw])]
    have hmatch : matchFracMin ((d :: ds') ++ c :: rest) = none := by
      rw [matchFracMin_eq, h1, h2]
      have hh : (c :: rest).head? ≠ some '.' := by simp [hcdot]
      rw [if_neg (by simp), if_neg hh, h3]
      have hp : ['분'].isPrefixOf (c :: rest) = false := by
        simp [List.isPrefixOf, beq_eq_false_iff_ne]
        exact fun he => absurd he.symm hcbun
      rw [hp, if_neg (by simp)]
    rw [List.cons_append] at hmatch
    rw [List.cons_append, searchFracMin_cons_eq, hmatch, ih hall' hcd hcw hcdot hcbun rest]

/-! ## Round trip of the integer duration codec -/

theorem convCh_eq (s : List Char) :
    convCh s =
      (⌊((if containsSub ['시', '간'] s then (searchNumThen ['시', '간'] s).getD 0 else 0 : ℕ) :
          ℚ) * 60 +
        (if containsSub ['분'] s then (searchFracMin s).getD 0 else 0)⌋).toNat := rfl

theorem not_bun_mem_natToChars (n : ℕ) : '분' ∉ natToChars n := by
  intro h
  have := natToChars_digit h
  simp [isDigitCh] at this

theorem not_si_mem_natToChars (n : ℕ) : '시' ∉ natToChars n := by
  intro h
  have := natToChars_digit h
  simp [isDigitCh] at this

theorem convCh_convMinCh (m : ℕ) : convCh (convMinCh m) = m := by
  have hds₁ := natToChars_ne_nil (m / 60)
  have hds₂ := natToChars_ne_nil (m % 60)
  have hall₁ : ∀ c ∈ natToChars (m / 60), isDigitCh c = true := fun c hc => natToChars_digit hc
  have hall₂ : ∀ c ∈ natToChars (m % 60), isDigitCh c = true := fun c hc => natToChars_digit hc
  by_cases hh : 0 < m / 60
  · by_cases hm : 0 < m % 60
    · have hshape : convMinCh m =
          natToChars (m / 60) ++ '시' :: (['간'] ++ (' ' :: natToChars (m % 60) ++ ['분'])) := by
        simp [convMinCh, if_pos (And.intro hh hm)]
      rw [hshape, convCh_eq]
      have hc₁ : containsSub ['시', '간']
          (natToChars (m / 60) ++ '시' :: (['간'] ++ (' ' :: natToChars (m % 60) ++ ['분'])))
            = true := by
        have h := containsSub_of_parts (natToChars (m / 60)) ['시', '간']
          (' ' :: natToChars (m % 60) ++ ['분'])
        simpa using h
      have hc₂ : containsSub ['분']
          (natToChars (m / 60) ++ '시' :: (['간'] ++ (' ' :: natToChars (m % 60) ++ ['분'])))
            = true := by
        have h := containsSub_of_parts
          (natToChars (m / 60) ++ '시' :: '간' :: ' ' :: natToChars (m % 60)) ['분'] []
        simpa using h
      have hsearch₁ : searchNumThen ['시', '간']
          (natToChars (m / 60) ++ '시' :: (['간'] ++ (' ' :: natToChars (m % 60) ++ ['분'])))
            = some (m / 60) := by
        have h := @searchNumThen_exact _ hds₁ hall₁ '시' ['간']
          (' ' :: natToChars (m % 60) ++ ['분']) (by decide) (by decide)
        rwa [digitsToNat_natToChars] at h
      have hsearch₂ : searchFracMin
          (natToChars (m / 60) ++ '시' :: (['간'] ++ (' ' :: natToChars (m % 60) ++ ['분'])))
            = some ((m % 60 : ℕ) : ℚ) := by
        have h1 := searchFracMin_skip_digits (natToChars (m / 60)) hall₁ (c := '시')
          (by decide) (by decide) (by decide) (by decide)
          (['간'] ++ (' ' :: natToChars (m % 60) ++ ['분']))
        have h2 : searchFracMin (['간'] ++ (' ' :: natToChars (m % 60) ++ ['분']))
            = searchFracMin (' ' :: natToChars (m % 60) ++ ['분']) := by
          have h := @searchFracMin_cons_nondigit '간'
            (' ' :: natToChars (m % 60) ++ ['분']) (by decide)
          simpa using h
        have h3 : searchFracMin (' ' :: natToChars (m % 60) ++ ['분'])
            = searchFracMin (natToChars (m % 60) ++ ['분']) := by
          have h := @searchFracMin_cons_nondigit ' '
            (natToChars (m % 60) ++ ['분']) (by decide)
          simpa using h
        have h4 := searchFracMin_exact hds₂ hall₂ []
        rw [h1, h2, h3]
        rw [digitsToNat_natToChars] at h4
        simpa using h4
      rw [hc₁, hc₂, if_pos rfl, if_pos rfl, hsearch₁, hsearch₂]
      have harith : ((m / 60 : ℕ) : ℚ) * 60 + ((m % 60 : ℕ) : ℚ)
          = ((m / 60 * 60 + m % 60 : ℕ) : ℚ) := by push_cast; ring
      rw [Option.getD_some, Option.getD_some, harith, Int.floor_natCast]
      omega
    · have hm0 : m % 60 = 0 := by omega
      have hshape : convMinCh m = natToChars (m / 60) ++ '시' :: (['간'] ++ []) := by
        simp [convMinCh, hm0, if_pos hh]
      rw [hshape, convCh_eq]
      have hc₁ : containsSub ['시', '간'] (natToChars (m / 60) ++ '시' :: (['간'] ++ []))
          = true := by
        have h := containsSub_of_parts (natToChars (m / 60)) ['시', '간'] []
        simpa using h
      have hc₂ : containsSub ['분'] (natToChars (m / 60) ++ '시' :: (['간'] ++ [])) = false := by
        apply containsSub_eq_false
        intro hmem
        rcases List.mem_append.mp hmem with h | h
        · exact not_bun_mem_natToChars _ h
        · simp at h
      have hsearch₁ : searchNumThen ['시', '간'] (natToChars (m / 60) ++ '시' :: (['간'] ++ []))
          = some (m / 60) := by
        have h := @searchNumThen_exact _ hds₁ hall₁ '시' ['간'] [] (by decide) (by decide)
        rwa [digitsToNat_natToChars] at h
      rw [hc₁, hc₂, if_pos rfl]
      simp only [Bool.false_eq_true, if_false]
      rw [hsearch₁, Option.getD_some]
      have harith : ((m / 60 : ℕ) : ℚ) * 60 + 0 = ((m / 60 * 60 : ℕ) : ℚ) := by push_cast; ring
      rw [harith, Int.floor_natCast]
      omega
  · have hdiv0 : m / 60 = 0 := by omega
    have hmod : m % 60 = m := by omega
    have hshape : convMinCh m = natToChars (m % 60) ++ ['분'] := by
      simp [convMinCh, hdiv0]
    rw [hshape, convCh_eq]
    have hc₁ : containsSub ['시', '간'] (natToChars (m % 60) ++ ['분']) = false := by
      apply containsSub_eq_false
      intro hmem
      rcases List.mem_append.mp hmem with h | h
      · exact not_si_mem_natToChars _ h
      · simp at h
    have hc₂ : containsSub ['분'] (natToChars (m % 60) ++ ['분']) = true := by
      have h := containsSub_of_parts (natToChars (m % 60)) ['분'] []
      simpa using h
    have hsearch₂ : searchFracMin (natToChars (m % 60) ++ ['분']) = some ((m % 60 : ℕ) : ℚ) := by
      have h := searchFracMin_exact hds₂ hall₂ []
      rw [digitsToNat_natToChars] at h
      simpa using h
    rw [hc₁, hc₂, if_pos rfl]
    simp only [Bool.false_eq_true, if_false]
    rw [hsearch₂, Option.getD_some]
    have harith : ((0 : ℕ) : ℚ) * 60 + ((m % 60 : ℕ) : ℚ) = ((m % 60 : ℕ) : ℚ) := by
      push_cast; ring
    rw [harith, Int.floor_natCast]
    omega

theorem parseDurCh_eq (s : List Char) :
    parseDurCh s =
      ((searchNumThen ['시', '간'] s).getD 0 : ℕ) * 60 +
        ((searchNumThen ['분'] s).getD 0 : ℕ) := rfl

/-! ## The midpoint splitter -/

theorem splitGo_cons_eq (half : ℚ) (tx : List Char) (d : ℚ) (rest : List (List Char × ℚ))
    (acc : ℚ) (hr : Bool) (asc desc : List (List Char × ℚ)) :
    splitGo half ((tx, d) :: rest) acc hr asc desc =
      if hr then splitGo half rest acc hr asc (desc ++ [(tx, d)])
      else if acc + d < half then splitGo half rest (acc + d) false (asc ++ [(tx, d)]) desc
      else if |acc + d - half| < 1 / 1000000000 then
        splitGo half rest (acc + d) true (asc ++ [(tx, d)]) desc
      else if half - acc < 0 then splitGo half rest acc true asc (desc ++ [(tx, d)])
      else
        splitGo half rest acc true (asc ++ [(mkSplitText tx (half - acc), half - acc)])
          (if d - (half - acc) > 0 then
            desc ++ [(mkSplitText tx (d - (half - acc)), d - (half - acc))]
          else desc) := rfl

theorem splitGo_conservation (half : ℚ) :
    ∀ (steps : List (List Char × ℚ)) (acc : ℚ) (hr : Bool) (asc desc : List (List Char × ℚ)),
      (((splitGo half steps acc hr asc desc).1.map Prod.snd).sum +
          ((splitGo half steps acc hr asc desc).2.map Prod.snd).sum) =
        ((asc.map Prod.snd).sum + (desc.map Prod.snd).sum + (steps.map Prod.snd).sum) := by
  intro steps
  induction steps with
  | nil => intro acc hr asc desc; simp [splitGo]
  | cons p rest ih =>
    obtain ⟨tx, d⟩ := p
    intro acc hr asc desc
    rw [splitGo_cons_eq]
    by_cases h1 : hr
    · rw [if_pos h1, ih]
      simp only [List.map_append, List.sum_append, List.map_cons, List.sum_cons,
        List.map_nil, List.sum_nil]
      ring
    · rw [if_neg h1]
      by_cases h2 : acc + d < half
      · rw [if_pos h2, ih]
        simp only [List.map_append, List.sum_append, List.map_cons, List.sum_cons,
          List.map_nil, List.sum_nil]
        ring
      · rw [if_neg h2]
        by_cases h3 : |acc + d - half| < 1 / 1000000000
        · rw [if_pos h3, ih]
          simp only [List.map_append, List.sum_append, List.map_cons, List.sum_cons,
            List.map_nil, List.sum_nil]
          ring
        · rw [if_neg h3]
          by_cases h4 : half - acc < 0
          · rw [if_pos h4, ih]
            simp only [List.map_append, List.sum_append, List.map_cons, List.sum_cons,
              List.map_nil, List.sum_nil]
            ring
          · rw [if_neg h4]
            have hdp : 0 < d - (half - acc) := by
              have hge : half ≤ acc + d := le_of_not_lt h2
              rcases lt_or_eq_of_le hge with hlt | heq
              · linarith
              · exfalso
                apply h3
                rw [← heq]
                simp only [add_sub_cancel_left, sub_self, abs_zero]
                norm_num
            rw [if_pos hdp, ih]
            simp only [List.map_append, List.sum_append, List.map_cons, List.sum_cons,
              List.map_nil, List.sum_nil]
            ring

theorem splitGo_past (half : ℚ) :
    ∀ (steps : List (List Char × ℚ)) (acc : ℚ) (asc desc : List (List Char × ℚ)),
      splitGo half steps acc true asc desc = (asc, desc ++ steps) := by
  intro steps
  induction steps with
  | nil => intro acc asc desc; simp [splitGo]
  | cons p rest ih =>
    obtain ⟨tx, d⟩ := p
    intro acc asc desc
    rw [splitGo_cons_eq, if_pos rfl, ih]
    simp

theorem splitGo_extends (half : ℚ) :
    ∀ (steps : List (List Char × ℚ)) (acc : ℚ) (hr : Bool) (asc desc : List (List Char × ℚ)),
      ∃ a2 d2, splitGo half steps acc hr asc desc = (asc ++ a2, desc ++ d2) := by
  intro steps
  induction steps with
  | nil => intro acc hr asc desc; exact ⟨[], [], by simp [splitGo]⟩
  | cons p rest ih =>
    obtain ⟨tx, d⟩ := p
    intro acc hr asc desc
    rw [splitGo_cons_eq]
    by_cases h1 : hr
    · rw [if_pos h1]
      obtain ⟨a2, d2, h⟩ := ih acc hr asc (desc ++ [(tx, d)])
      exact ⟨a2, (tx, d) :: d2, by rw [h]; simp⟩
    · rw [if_neg h1]
      by_cases h2 : acc + d < half
      · rw [if_pos h2]
        obtain ⟨a2, d2, h⟩ := ih (acc + d) false (asc ++ [(tx, d)]) desc
        exact ⟨(tx, d) :: a2, d2, by rw [h]; simp⟩
      · rw [if_neg h2]
        by_cases h3 : |acc + d - half| < 1 / 1000000000
        · rw [if_pos h3]
          obtain ⟨a2, d2, h⟩ := ih (acc + d) true (asc ++ [(tx, d)]) desc
          exact ⟨(tx, d) :: a2, d2, by rw [h]; simp⟩
        · rw [if_neg h3]
          by_cases h4 : half - acc < 0
          · rw [if_pos h4]
            obtain ⟨a2, d2, h⟩ := ih acc true asc (desc ++ [(tx, d)])
            exact ⟨a2, (tx, d) :: d2, by rw [h]; simp⟩
          · rw [if_neg h4]
            by_cases h5 : d - (half - acc) > 0
            · rw [if_pos h5]
              obtain ⟨a2, d2, h⟩ := ih acc true
                (asc ++ [(mkSplitText tx (half - acc), half - acc)])
                (desc ++ [(mkSplitText tx (d - (half - acc)), d - (half - acc))])
              exact ⟨(mkSplitText tx (half - acc), half - acc) :: a2,
                (mkSplitText tx (d - (half - acc)), d - (half - acc)) :: d2,
                by rw [h]; simp⟩
            · rw [if_neg h5]
              obtain ⟨a2, d2, h⟩ := ih acc true
                (asc ++ [(mkSplitText tx (half - acc), half - acc)]) desc
              exact ⟨(mkSplitText tx (half - acc), half - acc) :: a2, d2,
                by rw [h]; simp⟩

theorem splitGo_zero_step_kept (half : ℚ) :
    ∀ (steps : List (List Char × ℚ)) (acc : ℚ) (hr : Bool) (asc desc : List (List Char × ℚ)),
      (hr = false → acc ≤ half) → ∀ tx, (tx, (0 : ℚ)) ∈ steps →
        tx ∈ (splitGo half steps acc hr asc desc).1.map Prod.fst ∨
          tx ∈ (splitGo half steps acc hr asc desc).2.map Prod.fst := by
  intro steps
  induction steps with
  | nil => intro acc hr asc desc _ tx h; simp at h
  | cons p rest ih =>
    obtain ⟨tx', d'⟩ := p
    intro acc hr asc desc hinv tx hmem
    rcases List.mem_cons.mp hmem with hhead | htail
    · -- the zero step is the head: it is assigned whole to one of the halves
      have htx : tx = tx' := congrArg Prod.fst hhead
      have hd : (0 : ℚ) = d' := congrArg Prod.snd hhead
      subst htx
      subst hd
      rw [splitGo_cons_eq]
      cases hr with
      | true =>
        obtain ⟨a2, d2, h⟩ := splitGo_extends half rest acc true asc (desc ++ [(tx, 0)])
        rw [if_pos rfl, h]
        right
        simp
      | false =>
        have hacc : acc ≤ half := hinv rfl
        rw [if_neg (by simp)]
        by_cases h2 : acc + 0 < half
        · rw [if_pos h2]
          obtain ⟨a2, d2, h⟩ := splitGo_extends half rest (acc + 0) false (asc ++ [(tx, 0)]) desc
          rw [h]
          left
          simp
        · have heq : acc = half := le_antisymm hacc (by linarith [not_lt.mp h2])
          have h3 : |acc + 0 - half| < 1 / 1000000000 := by
            rw [heq]
            simp only [add_zero, sub_self, abs_zero]
            norm_num
          rw [if_neg h2, if_pos h3]
          obtain ⟨a2, d2, h⟩ := splitGo_extends half rest (acc + 0) true (asc ++ [(tx, 0)]) desc
          rw [h]
          left
          simp
    · -- the zero step lies further on: recurse with the preserved invariant
      rw [splitGo_cons_eq]
      by_cases h1 : hr
      · rw [if_pos h1]
        exact ih acc hr asc (desc ++ [(tx', d')]) hinv tx htail
      · rw [if_neg h1]
        by_cases h2 : acc + d' < half
        · rw [if_pos h2]
          exact ih (acc + d') false (asc ++ [(tx', d')]) desc
            (fun _ => le_of_lt h2) tx htail
        · rw [if_neg h2]
          by_cases h3 : |acc + d' - half| < 1 / 1000000000
          · rw [if_pos h3]
            exact ih (acc + d') true (asc ++ [(tx', d')]) desc (by simp) tx htail
          · rw [if_neg h3]
            by_cases h4 : half - acc < 0
            · rw [if_pos h4]
              exact ih acc true asc (desc ++ [(tx', d')]) (by simp) tx htail
            · rw [if_neg h4]
              exact ih acc true (asc ++ [(mkSplitText tx' (half - acc), half - acc)])
                (if d' - (half - acc) > 0 then
                  desc ++ [(mkSplitText tx' (d' - (half - acc)), d' - (half - acc))]
                else desc) (by simp) tx htail

theorem stepDur_nonneg (s : List Char) : 0 ≤ stepDur s := by
  unfold stepDur
  cases searchParen s with
  | none => norm_num
  | some dtext =>
    show (0 : ℚ) ≤ parseDurCh dtext
    rw [parseDurCh_eq]
    positivity

theorem parseSteps_snd (r : List Char) {p : List Char × ℚ} (hp : p ∈ parseSteps r) :
    p.2 = stepDur p.1 := by
  unfold parseSteps at hp
  obtain ⟨s, _, hs⟩ := List.mem_map.mp hp
  rw [← hs]

theorem parseSteps_snd_nonneg (r : List Char) {p : List Char × ℚ} (hp : p ∈ parseSteps r) :
    0 ≤ p.2 := by
  rw [parseSteps_snd r hp]
  exact stepDur_nonneg p.1

theorem routeTotal_nonneg (r : String) : 0 ≤ routeTotal r := by
  unfold routeTotal
  apply List.sum_nonneg
  intro x hx
  obtain ⟨p, hp, hx⟩ := List.mem_map.mp hx
  rw [← hx]
  exact parseSteps_snd_nonneg r.data hp

theorem all_zero_of_sum_zero :
    ∀ (l : List ℚ), (∀ x ∈ l, 0 ≤ x) → l.sum = 0 → ∀ x ∈ l, x = 0 := by
  intro l
  induction l with
  | nil => intro _ _ x hx; simp at hx
  | cons a t ih =>
    intro hpos hsum x hx
    have ht : 0 ≤ t.sum := List.sum_nonneg (fun y hy => hpos y (by simp [hy]))
    have ha : 0 ≤ a := hpos a (by simp)
    rw [List.sum_cons] at hsum
    have ha0 : a = 0 := by linarith
    have hts : t.sum = 0 := by linarith
    rcases List.mem_cons.mp hx with hxa | hxt
    · rw [hxa, ha0]
    · exact ih (fun y hy => hpos y (by simp [hy])) hts x hxt

/-! ## The transition counter -/

theorem rowTransitions_length (s : String) :
    ((rowTransitions s).length : ℤ) = max 0 ((extractModes s.data).length - 1) := by
  unfold rowTransitions
  rw [List.length_map, List.length_zip]
  cases extractModes s.data with
  | nil => simp
  | cons m t =>
    simp only [List.tail_cons, List.length_cons]
    omega

/-! ## Auxiliary list facts -/

theorem takeWhile_all {p : Char → Bool} :
    ∀ {l : List Char}, (∀ x ∈ l, p x = true) → l.takeWhile p = l := by
  intro l
  induction l with
  | nil => intro _; rfl
  | cons a t ih =>
    intro h
    rw [List.takeWhile_cons, if_pos (h a (by simp)), ih (fun x hx => h x (by simp [hx]))]

theorem dropWhile_all {p : Char → Bool} :
    ∀ {l : List Char}, (∀ x ∈ l, p x = true) → l.dropWhile p = [] := by
  intro l
  induction l with
  | nil => intro _; rfl
  | cons a t ih =>
    intro h
    rw [List.dropWhile_cons, if_pos (h a (by simp))]
    exact ih (fun x hx => h x (by simp [hx]))

theorem dropWhile_head_not {p : Char → Bool} :
    ∀ {l : List Char} {c : Char} {cs : List Char}, l.dropWhile p = c :: cs → p c = false := by
  intro l
  induction l with
  | nil => intro c cs h; simp at h
  | cons a t ih =>
    intro c cs h
    by_cases ha : p a
    · rw [List.dropWhile_cons, if_pos ha] at h
      exact ih h
    · rw [List.dropWhile_cons, if_neg ha] at h
      cases h
      exact eq_false_of_ne_true ha

theorem eq_cons_head_tail {l : List Char} {a : Char} (h : l.head? = some a) :
    l = a :: l.tail := by
  cases l with
  | nil => simp at h
  | cons x xs =>
    simp only [List.head?_cons, Option.some.injEq] at h
    subst h
    rfl

theorem length_dropWhile_le' (p : Char → Bool) (l : List Char) :
    (l.dropWhile p).length ≤ l.length :=
  (List.dropWhile_sublist p).length_le

/-! ## The simplifier's `findall` scanner -/

theorem findSegsF_cons_eq (f : ℕ) (c : Char) (cs : List Char) :
    findSegsF (f + 1) (c :: cs) =
      if isWordCh c then
        if ((c :: cs).dropWhile isWordCh).head? = some '(' then
          if ((((c :: cs).dropWhile isWordCh).tail).dropWhile
              (fun x => !(x == ')'))).head? = some ')' then
            if 2 ≤ ((((c :: cs).dropWhile isWordCh).tail).takeWhile
                  (fun x => !(x == ')'))).length ∧
                ((((c :: cs).dropWhile isWordCh).tail).takeWhile
                  (fun x => !(x == ')'))).head?.any isDigitCh then
              ((c :: cs).takeWhile isWordCh ++ '(' ::
                  ((((c :: cs).dropWhile isWordCh).tail).takeWhile (fun x => !(x == ')'))) ++
                  [')']) ::
                findSegsF f (((((c :: cs).dropWhile isWordCh).tail).dropWhile
                  (fun x => !(x == ')')))).tail
            else findSegsF f cs
          else findSegsF f cs
        else findSegsF f cs
      else findSegsF f cs := rfl

theorem findSegsF_irrel : ∀ (f : ℕ) (l : List Char) (f' : ℕ),
    l.length ≤ f → l.length ≤ f' → findSegsF f l = findSegsF f' l := by
  intro f
  induction f with
  | zero =>
    intro l f' hf _
    have hl : l = [] := List.length_eq_zero.mp (Nat.le_zero.mp hf)
    subst hl
    cases f' <;> rfl
  | succ f ih =>
    intro l f' hf hf'
    cases l with
    | nil => cases f' <;> rfl
    | cons c cs =>
      cases f' with
      | zero => simp at hf'
      | succ f2 =>
        rw [findSegsF_cons_eq, findSegsF_cons_eq]
        have hcs : cs.length ≤ f := by
          simp only [List.length_cons] at hf
          omega
        have hcs2 : cs.length ≤ f2 := by
          simp only [List.length_cons] at hf'
          omega
        by_cases h1 : isWordCh c
        · rw [if_pos h1, if_pos h1]
          by_cases h2 : ((c :: cs).dropWhile isWordCh).head? = some '('
          · rw [if_pos h2, if_pos h2]
            by_cases h3 : ((((c :: cs).dropWhile isWordCh).tail).dropWhile
                (fun x => !(x == ')'))).head? = some ')'
            · rw [if_pos h3, if_pos h3]
              have hlen : (((((c :: cs).dropWhile isWordCh).tail).dropWhile
                  (fun x => !(x == ')')))).tail.length ≤ cs.length := by
                have e0 : (c :: cs).dropWhile isWordCh = cs.dropWhile isWordCh := by
                  rw [List.dropWhile_cons, if_pos h1]
                have l0 : ((c :: cs).dropWhile isWordCh).length ≤ cs.length := by
                  rw [e0]
                  exact length_dropWhile_le' _ _
                have e1 := eq_cons_head_tail h2
                have l1 : (((c :: cs).dropWhile isWordCh).tail).length + 1 ≤ cs.length := by
                  have := congrArg List.length e1
                  simp only [List.length_cons] at this
                  omega
                have l2 : ((((c :: cs).dropWhile isWordCh).tail).dropWhile
                    (fun x => !(x == ')'))).length ≤
                    (((c :: cs).dropWhile isWordCh).tail).length :=
                  length_dropWhile_le' _ _
                have e2 := eq_cons_head_tail h3
                have l3 := congrArg List.length e2
                simp only [List.length_cons] at l3
                omega
              by_cases h4 : 2 ≤ ((((c :: cs).dropWhile isWordCh).tail).takeWhile
                    (fun x => !(x == ')'))).length ∧
                  ((((c :: cs).dropWhile isWordCh).tail).takeWhile
                    (fun x => !(x == ')'))).head?.any isDigitCh
              · rw [if_pos h4, if_pos h4]
                congr 1
                exact ih _ f2 (le_trans hlen hcs) (le_trans hlen hcs2)
              · rw [if_neg h4, if_neg h4]
                exact ih cs f2 hcs hcs2
            · rw [if_neg h3, if_neg h3]
              exact ih cs f2 hcs hcs2
          · rw [if_neg h2, if_neg h2]
            exact ih cs f2 hcs hcs2
        · rw [if_neg h1, if_neg h1]
          exact ih cs f2 hcs hcs2

theorem findSegs_nil : findSegs [] = [] := rfl

theorem findSegs_skip {c : Char} (hc : isWordCh c = false) (cs : List Char) :
    findSegs (c :: cs) = findSegs cs := by
  show findSegsF (cs.length + 1) (c :: cs) = findSegsF cs.length cs
  rw [findSegsF_cons_eq, if_neg (by simp [hc])]

theorem findSegs_arrow (l : List Char) :
    findSegs (' ' :: '-' :: '>' :: ' ' :: l) = findSegs l := by
  rw [findSegs_skip (by decide), findSegs_skip (by decide), findSegs_skip (by decide),
    findSegs_skip (by decide)]

theorem findSegs_token {w t : List Char} (hw : w ≠ []) (hwall : ∀ c ∈ w, isWordCh c = true)
    (ht2 : 2 ≤ t.length) (htp : ∀ c ∈ t, c ≠ ')') (hth : t.head?.any isDigitCh = true)
    (l' : List Char) :
    findSegs (w ++ '(' :: (t ++ ')' :: l')) = (w ++ '(' :: t ++ [')']) :: findSegs l' := by
  have htq : ∀ x ∈ t, (fun x => !(x == ')')) x = true := by
    intro x hx
    simp [htp x hx]
  have hrq : (fun x => !(x == ')')) ')' = false := by decide
  have hdw : (w ++ '(' :: (t ++ ')' :: l')).dropWhile isWordCh = '(' :: (t ++ ')' :: l') :=
    dropWhile_append_stop w '(' (t ++ ')' :: l') hwall (by decide)
  have htw : (w ++ '(' :: (t ++ ')' :: l')).takeWhile isWordCh = w :=
    takeWhile_append_stop w '(' (t ++ ')' :: l') hwall (by decide)
  have htake : (t ++ ')' :: l').takeWhile (fun x => !(x == ')')) = t :=
    takeWhile_append_stop t ')' l' htq hrq
  have hdrop : (t ++ ')' :: l').dropWhile (fun x => !(x == ')')) = ')' :: l' :=
    dropWhile_append_stop t ')' l' htq hrq
  cases w with
  | nil => exact absurd rfl hw
  | cons c w' =>
    have hc : isWordCh c = true := hwall c (by simp)
    rw [List.cons_append] at hdw htw
    show findSegsF ((w' ++ '(' :: (t ++ ')' :: l')).length + 1)
        (c :: (w' ++ '(' :: (t ++ ')' :: l'))) = _
    have hfs : findSegsF (w' ++ '(' :: (t ++ ')' :: l')).length l' = findSegs l' := by
      have hlen : l'.length ≤ (w' ++ '(' :: (t ++ ')' :: l')).length := by
        simp only [List.length_append, List.length_cons]
        omega
      exact findSegsF_irrel _ l' l'.length hlen le_rfl
    rw [findSegsF_cons_eq, if_pos hc, hdw]
    simp only [List.head?_cons, List.tail_cons, Option.some.injEq, eq_self_iff_true, if_true]
    rw [htake, hdrop]
    simp only [List.head?_cons, List.tail_cons, Option.some.injEq, eq_self_iff_true, if_true]
    rw [if_pos ⟨ht2, hth⟩, htw, hfs]

theorem findSegsF_good : ∀ (f : ℕ) (l : List Char), ∀ tok ∈ findSegsF f l, GoodTok tok := by
  intro f
  induction f with
  | zero => intro l tok h; simp [findSegsF] at h
  | succ f ih =>
    intro l tok h
    cases l with
    | nil => simp [findSegsF] at h
    | cons c cs =>
      rw [findSegsF_cons_eq] at h
      by_cases h1 : isWordCh c
      · rw [if_pos h1] at h
        by_cases h2 : ((c :: cs).dropWhile isWordCh).head? = some '('
        · rw [if_pos h2] at h
          by_cases h3 : ((((c :: cs).dropWhile isWordCh).tail).dropWhile
              (fun x => !(x == ')'))).head? = some ')'
          · rw [if_pos h3] at h
            by_cases h4 : 2 ≤ ((((c :: cs).dropWhile isWordCh).tail).takeWhile
                  (fun x => !(x == ')'))).length ∧
                ((((c :: cs).dropWhile isWordCh).tail).takeWhile
                  (fun x => !(x == ')'))).head?.any isDigitCh
            · rw [if_pos h4] at h
              rcases List.mem_cons.mp h with htok | htok
              · refine ⟨(c :: cs).takeWhile isWordCh,
                  (((c :: cs).dropWhile isWordCh).tail).takeWhile (fun x => !(x == ')')),
                  htok, ?_, ?_, h4.1, ?_, h4.2⟩
                · rw [List.takeWhile_cons, if_pos h1]
                  simp
                · intro x hx
                  exact List.mem_takeWhile_imp hx
                · intro x hx
                  have := List.mem_takeWhile_imp (p := fun x => !(x == ')')) hx
                  simp at this
                  exact this
              · exact ih _ tok htok
            · rw [if_neg h4] at h
              exact ih cs tok h
          · rw [if_neg h3] at h
            exact ih cs tok h
        · rw [if_neg h2] at h
          exact ih cs tok h
      · rw [if_neg h1] at h
        exact ih cs tok h

theorem findSegs_good (l : List Char) : ∀ tok ∈ findSegs l, GoodTok tok :=
  findSegsF_good l.length l

/-! ## The simplifier's inner match on shaped tokens -/

theorem matchModeTime_if_eq (seg : List Char) :
    matchModeTime seg =
      if seg.takeWhile isWordCh = [] then none
      else if (seg.dropWhile isWordCh).head? = some '(' then
        if ((((seg.dropWhile isWordCh).tail.takeWhile
              (fun x => !(x == '\n'))).reverse).dropWhile (fun x => !(x == ')'))).head?
            = some ')' then
          if ((((seg.dropWhile isWordCh).tail.takeWhile
                (fun x => !(x == '\n'))).reverse).dropWhile (fun x => !(x == ')'))).tail
              = [] then none
          else some (seg.takeWhile isWordCh,
            (((((seg.dropWhile isWordCh).tail.takeWhile
              (fun x => !(x == '\n'))).reverse).dropWhile (fun x => !(x == ')'))).tail).reverse)
        else none
      else none := rfl

theorem matchModeTime_shape {w t : List Char} (hw : w ≠ [])
    (hwall : ∀ c ∈ w, isWordCh c = true) (htp : ∀ c ∈ t, c ≠ ')') (hnl : '\n' ∉ t)
    (hne : t ≠ []) : matchModeTime (w ++ '(' :: (t ++ [')'])) = some (w, t) := by
  have htw : (w ++ '(' :: (t ++ [')'])).takeWhile isWordCh = w :=
    takeWhile_append_stop w '(' (t ++ [')']) hwall (by decide)
  have hdw : (w ++ '(' :: (t ++ [')'])).dropWhile isWordCh = '(' :: (t ++ [')']) :=
    dropWhile_append_stop w '(' (t ++ [')']) hwall (by decide)
  have hline : (t ++ [')']).takeWhile (fun x => !(x == '\n')) = t ++ [')'] := by
    apply takeWhile_all
    intro x hx
    rcases List.mem_append.mp hx with hx | hx
    · simp
      intro he
      exact hnl (he ▸ hx)
    · simp at hx
      simp [hx]
  have hrev : (t ++ [')']).reverse = ')' :: t.reverse := by simp
  have hnq : ¬ ((!(')' == ')')) = true) := by decide
  rw [matchModeTime_if_eq, htw, if_neg hw, hdw]
  simp only [List.head?_cons, List.tail_cons, Option.some.injEq, eq_self_iff_true, if_true]
  rw [hline, hrev, List.dropWhile_cons, if_neg hnq]
  simp only [List.head?_cons, List.tail_cons, Option.some.injEq, eq_self_iff_true, if_true]
  rw [if_neg (by simp [hne]), List.reverse_reverse]

theorem matchModeTime_goodTok_some {w t : List Char} {p : List Char × List Char}
    (hw : w ≠ []) (hwall : ∀ c ∈ w, isWordCh c = true) (htp : ∀ c ∈ t, c ≠ ')')
    (hne : t ≠ []) (h : matchModeTime (w ++ '(' :: (t ++ [')'])) = some p) :
    p = (w, t) ∧ '\n' ∉ t := by
  by_cases hnl : '\n' ∈ t
  · exfalso
    have htw : (w ++ '(' :: (t ++ [')'])).takeWhile isWordCh = w :=
      takeWhile_append_stop w '(' (t ++ [')']) hwall (by decide)
    have hdw : (w ++ '(' :: (t ++ [')'])).dropWhile isWordCh = '(' :: (t ++ [')']) :=
      dropWhile_append_stop w '(' (t ++ [')']) hwall (by decide)
    rw [matchModeTime_if_eq, htw, if_neg hw, hdw] at h
    simp only [List.head?_cons, List.tail_cons, Option.some.injEq, eq_self_iff_true,
      if_true] at h
    have hq : ∀ x ∈ t.takeWhile (fun x => !(x == '\n')), (fun x => !(x == '\n')) x = true :=
      fun _ hx => List.mem_takeWhile_imp (p := fun x => !(x == '\n')) hx
    have hdrop : t.dropWhile (fun x => !(x == '\n')) =
        '\n' :: (t.dropWhile (fun x => !(x == '\n'))).tail := by
      cases hcase : t.dropWhile (fun x => !(x == '\n')) with
      | nil =>
        exfalso
        have hall : t.takeWhile (fun x => !(x == '\n')) = t := by
          have := List.takeWhile_append_dropWhile (p := fun x => !(x == '\n')) (l := t)
          rw [hcase, List.append_nil] at this
          exact this
        have : (fun x => !(x == '\n')) '\n' = true := by
          apply List.mem_takeWhile_imp (p := fun x => !(x == '\n')) (l := t)
          rw [hall]
          exact hnl
        simp at this
      | cons d ds =>
        have hd := dropWhile_head_not hcase
        simp only [Bool.not_eq_true'] at hd
        have hdn : d = '\n' := by simpa using hd
        subst hdn
        rfl
    have hsplit : t.takeWhile (fun x => !(x == '\n')) ++
        '\n' :: (t.dropWhile (fun x => !(x == '\n'))).tail = t := by
      conv_rhs => rw [← List.takeWhile_append_dropWhile (p := fun x => !(x == '\n')) (l := t)]
      rw [← hdrop]
    have hline : (t ++ [')']).takeWhile (fun x => !(x == '\n')) =
        t.takeWhile (fun x => !(x == '\n')) := by
      conv_lhs => rw [← hsplit]
      rw [List.append_assoc, List.cons_append]
      exact takeWhile_append_stop _ '\n' _ hq (by decide)
    rw [hline] at h
    have hrevnil : ((t.takeWhile (fun x => !(x == '\n'))).reverse).dropWhile
        (fun x => !(x == ')')) = [] := by
      apply dropWhile_all
      intro x hx
      rw [List.mem_reverse] at hx
      have hxt : x ∈ t := (List.takeWhile_sublist _).subset hx
      simp [htp x hxt]
    rw [hrevnil] at h
    simp at h
  · rw [matchModeTime_shape hw hwall htp hnl hne] at h
    have := Option.some.inj h
    exact ⟨this.symm, hnl⟩

theorem tokMode_shape {w : List Char} (hwall : ∀ c ∈ w, isWordCh c = true) (t : List Char) :
    tokMode (w ++ '(' :: (t ++ [')'])) = w :=
  takeWhile_append_stop w '(' (t ++ [')']) hwall (by decide)

/-! ## The emitted formatted tokens -/

theorem convMinCh_chars {m : ℕ} {c : Char} (h : c ∈ convMinCh m) :
    isDigitCh c = true ∨ c = '시' ∨ c = '간' ∨ c = ' ' ∨ c = '분' := by
  unfold convMinCh at h
  by_cases h1 : 0 < m / 60 ∧ 0 < m % 60
  · rw [if_pos h1] at h
    rcases List.mem_append.mp h with h | h
    · rcases List.mem_append.mp h with h | h
      · exact Or.inl (natToChars_digit h)
      · rcases List.mem_cons.mp h with h | h
        · simp [h]
        rcases List.mem_cons.mp h with h | h
        · simp [h]
        rcases List.mem_cons.mp h with h | h
        · simp [h]
        · exact Or.inl (natToChars_digit h)
    · simp at h
      simp [h]
  · rw [if_neg h1] at h
    by_cases h2 : 0 < m / 60
    · rw [if_pos h2] at h
      rcases List.mem_append.mp h with h | h
      · exact Or.inl (natToChars_digit h)
      · rcases List.mem_cons.mp h with h | h
        · simp [h]
        · simp at h
          simp [h]
    · rw [if_neg h2] at h
      rcases List.mem_append.mp h with h | h
      · exact Or.inl (natToChars_digit h)
      · simp at h
        simp [h]

theorem convMinCh_ne_rparen (m : ℕ) : ∀ c ∈ convMinCh m, c ≠ ')' := by
  intro c hc
  rcases convMinCh_chars hc with h | h | h | h | h
  · intro he
    rw [he] at h
    simp [isDigitCh] at h
  all_goals (rw [h]; decide)

theorem convMinCh_no_newline (m : ℕ) : '\n' ∉ convMinCh m := by
  intro h
  rcases convMinCh_chars h with h | h | h | h | h
  · simp [isDigitCh] at h
  all_goals simp at h

theorem convMinCh_len2 (m : ℕ) : 2 ≤ (convMinCh m).length := by
  have h1 : 1 ≤ (natToChars (m / 60)).length :=
    List.length_pos.mpr (natToChars_ne_nil (m / 60))
  have h2 : 1 ≤ (natToChars (m % 60)).length :=
    List.length_pos.mpr (natToChars_ne_nil (m % 60))
  unfold convMinCh
  by_cases hc1 : 0 < m / 60 ∧ 0 < m % 60
  · rw [if_pos hc1]
    simp [List.length_append]
    omega
  · rw [if_neg hc1]
    by_cases hc2 : 0 < m / 60
    · rw [if_pos hc2]
      simp [List.length_append]
    · rw [if_neg hc2]
      simp [List.length_append]
      omega

theorem convMinCh_head_digit (m : ℕ) : (convMinCh m).head?.any isDigitCh = true := by
  unfold convMinCh
  by_cases hc1 : 0 < m / 60 ∧ 0 < m % 60
  · rw [if_pos hc1]
    cases hn : natToChars (m / 60) with
    | nil => exact absurd hn (natToChars_ne_nil _)
    | cons c cs =>
      simp only [List.cons_append, List.head?_cons, Option.any_some]
      exact natToChars_digit (hn ▸ List.mem_cons_self c cs)
  · rw [if_neg hc1]
    by_cases hc2 : 0 < m / 60
    · rw [if_pos hc2]
      cases hn : natToChars (m / 60) with
      | nil => exact absurd hn (natToChars_ne_nil _)
      | cons c cs =>
        simp only [List.cons_append, List.head?_cons, Option.any_some]
        exact natToChars_digit (hn ▸ List.mem_cons_self c cs)
    · rw [if_neg hc2]
      cases hn : natToChars (m % 60) with
      | nil => exact absurd hn (natToChars_ne_nil _)
      | cons c cs =>
        simp only [List.cons_append, List.head?_cons, Option.any_some]
        exact natToChars_digit (hn ▸ List.mem_cons_self c cs)

theorem flush_TokOK {m : List Char} (hm : m ≠ []) (hwall : ∀ c ∈ m, isWordCh c = true)
    (tt : ℕ) : TokOK (m ++ '(' :: convMinCh tt ++ [')']) := by
  refine ⟨m, convMinCh tt, rfl, hm, hwall, convMinCh_len2 tt, convMinCh_ne_rparen tt,
    convMinCh_head_digit tt, convMinCh_no_newline tt, fun _ => ?_⟩
  rw [convCh_convMinCh]

/-! ## Structure of the simplifier's output -/

theorem token_assoc (w t : List Char) :
    w ++ '(' :: t ++ [')'] = w ++ '(' :: (t ++ [')']) := by
  rw [List.append_assoc, List.cons_append]

theorem tokMode_token {w : List Char} (hwall : ∀ c ∈ w, isWordCh c = true) (t : List Char) :
    tokMode (w ++ '(' :: t ++ [')']) = w := by
  rw [token_assoc]
  exact tokMode_shape hwall t

theorem goodTok_of_tokOK {tok : List Char} (h : TokOK tok) : GoodTok tok := by
  obtain ⟨w, t, h1, h2, h3, h4, h5, h6, _, _⟩ := h
  exact ⟨w, t, h1, h2, h3, h4, h5, h6⟩

theorem getD_snoc_lt {l : List (List Char)} {x : List Char} {k : ℕ} (h : k < l.length) :
    (l ++ [x]).getD k [] = l.getD k [] := List.getD_append l [x] [] k h

theorem getD_snoc_last {l : List (List Char)} {x : List Char} :
    (l ++ [x]).getD l.length [] = x := by
  rw [List.getD_append_right l [x] [] l.length le_rfl]
  simp

theorem walkOnlyFirst_snoc {l : List (List Char)} {x : List Char}
    (hl : WalkOnlyFirst l) (hx : tokMode x ≠ walkingCh) : WalkOnlyFirst (l ++ [x]) := by
  intro k hk hw
  rw [List.length_append, List.length_singleton] at hk
  by_cases hkl : k < l.length
  · rw [getD_snoc_lt hkl] at hw
    exact hl k hkl hw
  · have hkeq : k = l.length := by omega
    subst hkeq
    rw [getD_snoc_last] at hw
    exact absurd hw hx

theorem adjOK_snoc {l : List (List Char)} {x : List Char} (hl : AdjOK l)
    (hlast : l ≠ [] → tokMode (l.getD (l.length - 1) []) ≠ walkingCh →
      tokMode x ≠ walkingCh → tokMode (l.getD (l.length - 1) []) ≠ tokMode x) :
    AdjOK (l ++ [x]) := by
  intro k hk hnw1 hnw2
  rw [List.length_append, List.length_singleton] at hk
  by_cases hkl : k + 1 < l.length
  · rw [getD_snoc_lt hkl] at hnw2 ⊢
    rw [getD_snoc_lt (by omega)] at hnw1 ⊢
    exact hl k hkl hnw1 hnw2
  · have hkeq : k + 1 = l.length := by omega
    have hlne : l ≠ [] := by
      intro he
      rw [he] at hkeq
      simp at hkeq
    have hk1 : k < l.length := by omega
    have hgk : (l ++ [x]).getD k [] = l.getD k [] := getD_snoc_lt hk1
    have hgk1 : (l ++ [x]).getD (k + 1) [] = x := by rw [hkeq, getD_snoc_last]
    have hkk : k = l.length - 1 := by omega
    rw [hgk1] at hnw2 ⊢
    rw [hgk] at hnw1 ⊢
    rw [hkk] at hnw1 ⊢
    exact hlast hlne hnw1 hnw2

theorem simpOut_singleton {T : List Char} (h : TokOK T) : SimpOut [T] := by
  refine ⟨?_, ?_, ?_⟩
  · intro tok htok
    rcases List.mem_singleton.mp htok with rfl
    exact h
  · intro k hk _
    simp only [List.length_cons, List.length_nil] at hk ⊢
    omega
  · intro k hk
    simp only [List.length_cons, List.length_nil] at hk
    exact absurd hk (by omega)

theorem simpOut_pair {W T : List Char} (hW : TokOK W) (hT : TokOK T)
    (hWw : tokMode W = walkingCh) : SimpOut [W, T] := by
  refine ⟨?_, ?_, ?_⟩
  · intro tok htok
    rcases List.mem_cons.mp htok with rfl | htok
    · exact hW
    rcases List.mem_singleton.mp htok with rfl
    exact hT
  · intro k hk _
    simp only [List.length_cons, List.length_nil] at hk ⊢
    omega
  · intro k hk hnw1 _
    simp only [List.length_cons, List.length_nil] at hk
    have hk0 : k = 0 := by omega
    subst hk0
    exact absurd hWw hnw1

/-! ## Unfolding the simplifier loop -/

theorem simplifyGo_nil_eq (n i : ℕ) (cm : Option (List Char)) (tt : ℕ)
    (out : List (List Char)) : simplifyGo n [] i cm tt out = out ++ flushOut cm tt := rfl

theorem simplifyGo_skip {seg : List Char} (h : matchModeTime seg = none) (n : ℕ)
    (rest : List (List Char)) (i : ℕ) (cm : Option (List Char)) (tt : ℕ)
    (out : List (List Char)) :
    simplifyGo n (seg :: rest) i cm tt out = simplifyGo n rest (i + 1) cm tt out := by
  conv_lhs => unfold simplifyGo
  rw [h]

theorem simplifyGo_matched {seg mode time : List Char}
    (h : matchModeTime seg = some (mode, time)) (n : ℕ) (rest : List (List Char)) (i : ℕ)
    (cm : Option (List Char)) (tt : ℕ) (out : List (List Char)) :
    simplifyGo n (seg :: rest) i cm tt out =
      if mode = walkingCh then
        if i = 0 ∨ i = n - 1 then
          simplifyGo n rest (i + 1) none 0 (out ++ flushOut cm tt ++ [seg])
        else simplifyGo n rest (i + 1) cm (tt + convCh time) out
      else if cm = some mode then simplifyGo n rest (i + 1) cm (tt + convCh time) out
      else simplifyGo n rest (i + 1) (some mode) (convCh time) (out ++ flushOut cm tt) := by
  conv_lhs => unfold simplifyGo
  rw [h]

/-! ## Every simplifier output satisfies the output invariant -/

theorem simplifyGo_simpOut (n : ℕ) :
    ∀ (segs : List (List Char)) (i : ℕ) (cm : Option (List Char)) (tt : ℕ)
      (out : List (List Char)),
      i + segs.length = n →
      (∀ tok ∈ segs, GoodTok tok) →
      (∀ tok ∈ out, TokOK tok) →
      WalkOnlyFirst out →
      AdjOK out →
      (∀ m, cm = some m → m ≠ walkingCh ∧ m ≠ [] ∧ (∀ c ∈ m, isWordCh c = true) ∧
        (out ≠ [] → tokMode (out.getD (out.length - 1) []) ≠ m)) →
      (cm = none → out = [] ∨ ∃ W, out = [W] ∧ tokMode W = walkingCh) →
      (i = 0 → out = [] ∧ cm = none) →
      SimpOut (simplifyGo n segs i cm tt out) := by
  intro segs
  induction segs with
  | nil =>
    intro i cm tt out _ _ h3 h4 h5 h6 _ _
    rw [simplifyGo_nil_eq]
    cases cm with
    | none =>
      rw [show flushOut none tt = [] from rfl, List.append_nil]
      exact ⟨h3, fun k hk hw => Or.inl (h4 k hk hw), h5⟩
    | some m =>
      obtain ⟨hmw, hmne, hmall, hlast⟩ := h6 m rfl
      rw [show flushOut (some m) tt = [m ++ '(' :: convMinCh tt ++ [')']] from rfl]
      refine ⟨?_, ?_, ?_⟩
      · intro tok htok
        rcases List.mem_append.mp htok with htok | htok
        · exact h3 tok htok
        · rcases List.mem_singleton.mp htok with rfl
          exact flush_TokOK hmne hmall tt
      · intro k hk hw
        rw [List.length_append, List.length_singleton] at hk
        by_cases hkl : k < out.length
        · rw [getD_snoc_lt hkl] at hw
          exact Or.inl (h4 k hkl hw)
        · right
          rw [List.length_append, List.length_singleton]
          omega
      · apply adjOK_snoc h5
        intro hne _ _
        rw [tokMode_token hmall]
        exact hlast hne
  | cons seg rest ih =>
    intro i cm tt out h1 h2 h3 h4 h5 h6 h7 h8
    obtain ⟨w, t, hshape, hwne, hwall, ht2, htp, hth⟩ := h2 seg (by simp)
    have h2' : ∀ tok ∈ rest, GoodTok tok := fun tok htok => h2 tok (by simp [htok])
    have htne : t ≠ [] := by
      intro he
      rw [he] at ht2
      simp at ht2
    have h1' : (i + 1) + rest.length = n := by
      simp only [List.length_cons] at h1
      omega
    cases hmt : matchModeTime seg with
    | none =>
      rw [simplifyGo_skip hmt]
      exact ih (i + 1) cm tt out h1' h2' h3 h4 h5 h6 h7 (by omega)
    | some p =>
      have hseg' : seg = w ++ '(' :: (t ++ [')']) := by rw [hshape, token_assoc]
      obtain ⟨hp, hnl⟩ := matchModeTime_goodTok_some hwne hwall htp htne (hseg' ▸ hmt)
      subst hp
      rw [simplifyGo_matched hmt]
      have hmodeSeg : tokMode seg = w := by
        rw [hshape]
        exact tokMode_token hwall t
      by_cases hwalk : w = walkingCh
      · rw [if_pos hwalk]
        have hsegOK : TokOK seg :=
          ⟨w, t, hshape, hwne, hwall, ht2, htp, hth, hnl, fun hne => absurd hwalk hne⟩
        by_cases hi0 : i = 0
        · rw [if_pos (Or.inl hi0)]
          obtain ⟨hout0, hcm0⟩ := h8 hi0
          subst hout0
          subst hcm0
          rw [show ([] : List (List Char)) ++ flushOut none tt ++ [seg] = [seg] from rfl]
          apply ih (i + 1) none 0 [seg] h1' h2'
          · intro tok htok
            rcases List.mem_singleton.mp htok with rfl
            exact hsegOK
          · intro k hk _
            simp at hk
            omega
          · intro k hk
            simp at hk
          · intro m hm
            simp at hm
          · intro _
            right
            exact ⟨seg, rfl, by rw [hmodeSeg, hwalk]⟩
          · omega
        · by_cases hin : i = n - 1
          · rw [if_pos (Or.inr hin)]
            have hrest : rest = [] := by
              rw [← List.length_eq_zero]
              omega
            subst hrest
            rw [simplifyGo_nil_eq, show flushOut none 0 = [] from rfl, List.append_nil]
            cases cm with
            | none =>
              rw [show flushOut none tt = [] from rfl, List.append_nil]
              rcases h7 rfl with hout0 | ⟨W, houtW, hWw⟩
              · subst hout0
                rw [List.nil_append]
                exact simpOut_singleton hsegOK
              · subst houtW
                exact simpOut_pair (h3 W (by simp)) hsegOK hWw
            | some m =>
              obtain ⟨hmw, hmne, hmall, hlast⟩ := h6 m rfl
              rw [show flushOut (some m) tt = [m ++ '(' :: convMinCh tt ++ [')']] from rfl]
              have hFmode : tokMode (m ++ '(' :: convMinCh tt ++ [')']) = m :=
                tokMode_token hmall _
              refine ⟨?_, ?_, ?_⟩
              · intro tok htok
                rcases List.mem_append.mp htok with htok | htok
                · rcases List.mem_append.mp htok with htok | htok
                  · exact h3 tok htok
                  · rcases List.mem_singleton.mp htok with rfl
                    exact flush_TokOK hmne hmall tt
                · rcases List.mem_singleton.mp htok with rfl
                  exact hsegOK
              · intro k hk hw
                rw [List.length_append, List.length_append, List.length_singleton,
                  List.length_singleton] at hk
                by_cases hk1 : k < out.length
                · rw [getD_snoc_lt (by rw [List.length_append, List.length_singleton]; omega),
                    getD_snoc_lt hk1] at hw
                  exact Or.inl (h4 k hk1 hw)
                · by_cases hk2 : k = out.length
                  · exfalso
                    subst hk2
                    rw [getD_snoc_lt (by rw [List.length_append, List.length_singleton]; omega),
                      getD_snoc_last, hFmode] at hw
                    exact hmw hw
                  · right
                    rw [List.length_append, List.length_append, List.length_singleton,
                      List.length_singleton]
                    omega
              · apply adjOK_snoc
                · apply adjOK_snoc h5
                  intro hne _ _
                  rw [hFmode]
                  exact hlast hne
                · intro _ _ hsw
                  exact absurd (by rw [hmodeSeg, hwalk]) hsw
          · rw [if_neg (by rintro (h | h); exact hi0 h; exact hin h)]
            apply ih (i + 1) cm (tt + convCh t) out h1' h2' h3 h4 h5 h6 ?_ (by omega)
            intro hcm
            rcases h7 hcm with h | h
            · exact Or.inl h
            · exact Or.inr h
      · rw [if_neg hwalk]
        by_cases hsame : cm = some w
        · rw [if_pos hsame]
          apply ih (i + 1) cm (tt + convCh t) out h1' h2' h3 h4 h5 h6 ?_ (by omega)
          intro hcm
          rcases h7 hcm with h | h
          · exact Or.inl h
          · exact Or.inr h
        · rw [if_neg hsame]
          cases cm with
          | none =>
            rw [show flushOut none tt = [] from rfl, List.append_nil]
            apply ih (i + 1) (some w) (convCh t) out h1' h2' h3 h4 h5 ?_ ?_ (by omega)
            · intro m hm
              have hmw : w = m := by simpa using hm
              subst hmw
              refine ⟨hwalk, hwne, hwall, ?_⟩
              intro hne
              rcases h7 rfl with hout0 | ⟨W, houtW, hWw⟩
              · exact absurd hout0 hne
              · subst houtW
                rw [show ([W] : List (List Char)).length - 1 = 0 from rfl]
                rw [show ([W] : List (List Char)).getD 0 [] = W from rfl]
                rw [hWw]
                intro he
                exact hwalk he.symm
            · intro h
              simp at h
          | some m0 =>
            obtain ⟨hm0w, hm0ne, hm0all, hm0last⟩ := h6 m0 rfl
            rw [show flushOut (some m0) tt = [m0 ++ '(' :: convMinCh tt ++ [')']] from rfl]
            have hFmode : tokMode (m0 ++ '(' :: convMinCh tt ++ [')']) = m0 :=
              tokMode_token hm0all _
            apply ih (i + 1) (some w) (convCh t)
              (out ++ [m0 ++ '(' :: convMinCh tt ++ [')']]) h1' h2' ?_ ?_ ?_ ?_ ?_ (by omega)
            · intro tok htok
              rcases List.mem_append.mp htok with htok | htok
              · exact h3 tok htok
              · rcases List.mem_singleton.mp htok with rfl
                exact flush_TokOK hm0ne hm0all tt
            · apply walkOnlyFirst_snoc h4
              rw [hFmode]
              exact hm0w
            · apply adjOK_snoc h5
              intro hne _ _
              rw [hFmode]
              exact hm0last hne
            · intro m hm
              have hmw : w = m := by simpa using hm
              subst hmw
              refine ⟨hwalk, hwne, hwall, ?_⟩
              intro _
              rw [List.length_append, List.length_singleton, Nat.add_sub_cancel,
                getD_snoc_last, hFmode]
              intro he
              apply hsame
              rw [he]
            · intro h
              simp at h

/-! ## A canonical simplified run re-emits itself -/

theorem simplifyGo_canonical_run (n : ℕ) :
    ∀ (toks : List (List Char)) (i : ℕ) (m : List Char) (tt : ℕ) (out : List (List Char)),
      1 ≤ i → i + toks.length = n →
      (∀ tok ∈ toks, TokOK tok) →
      (∀ k, k + 1 < toks.length → tokMode (toks.getD k []) ≠ walkingCh) →
      (∀ k, k + 1 < toks.length → tokMode (toks.getD k []) ≠ tokMode (toks.getD (k + 1) [])) →
      (toks ≠ [] → m ≠ tokMode (toks.getD 0 [])) →
      simplifyGo n toks i (some m) tt out =
        out ++ (m ++ '(' :: convMinCh tt ++ [')']) :: toks := by
  intro toks
  induction toks with
  | nil =>
    intro i m tt out _ _ _ _ _ _
    rw [simplifyGo_nil_eq]
    rfl
  | cons T rest ih =>
    intro i m tt out hi h1 hOK hnw hdist hhead
    obtain ⟨w, t, hshape, hwne, hwall, ht2, htp, hth, hnl, hcanon⟩ := hOK T (by simp)
    have htne : t ≠ [] := by
      intro he
      rw [he] at ht2
      simp at ht2
    have hmt : matchModeTime T = some (w, t) := by
      rw [hshape, token_assoc]
      exact matchModeTime_shape hwne hwall htp hnl htne
    have hmodeT : tokMode T = w := by
      rw [hshape]
      exact tokMode_token hwall t
    rw [simplifyGo_matched hmt]
    by_cases hwalk : w = walkingCh
    · have hrest : rest = [] := by
        cases rest with
        | nil => rfl
        | cons a b =>
          exfalso
          have hh := hnw 0 (by simp)
          rw [List.getD_cons_zero, hmodeT] at hh
          exact hh hwalk
      subst hrest
      have hin : i = n - 1 := by
        simp only [List.length_cons, List.length_nil] at h1
        omega
      rw [if_pos hwalk, if_pos (Or.inr hin), simplifyGo_nil_eq]
      rw [show flushOut none 0 = [] from rfl, List.append_nil]
      rw [show flushOut (some m) tt = [m ++ '(' :: convMinCh tt ++ [')']] from rfl]
      simp [List.append_assoc]
    · have hm : ¬ ((some m : Option (List Char)) = some w) := by
        intro he
        have hh := hhead (by simp)
        rw [List.getD_cons_zero, hmodeT] at hh
        exact hh (Option.some.inj he)
      rw [if_neg hwalk, if_neg hm]
      have hOK' : ∀ tok ∈ rest, TokOK tok := fun tok h => hOK tok (by simp [h])
      have hnw' : ∀ k, k + 1 < rest.length → tokMode (rest.getD k []) ≠ walkingCh := by
        intro k hk
        have hh := hnw (k + 1) (by simp only [List.length_cons]; omega)
        rwa [List.getD_cons_succ] at hh
      have hdist' : ∀ k, k + 1 < rest.length →
          tokMode (rest.getD k []) ≠ tokMode (rest.getD (k + 1) []) := by
        intro k hk
        have hh := hdist (k + 1) (by simp only [List.length_cons]; omega)
        rwa [List.getD_cons_succ, List.getD_cons_succ] at hh
      have hhead' : rest ≠ [] → w ≠ tokMode (rest.getD 0 []) := by
        intro hne
        have hlen : 0 + 1 < (T :: rest).length := by
          simp only [List.length_cons]
          have := List.length_pos.mpr hne
          omega
        have hh := hdist 0 hlen
        rwa [List.getD_cons_zero, List.getD_cons_succ, hmodeT] at hh
      rw [ih (i + 1) w (convCh t) (out ++ flushOut (some m) tt) (by omega)
        (by simp only [List.length_cons] at h1; omega) hOK' hnw' hdist' hhead']
      rw [show flushOut (some m) tt = [m ++ '(' :: convMinCh tt ++ [')']] from rfl]
      rw [← hcanon hwalk, ← hshape]
      simp [List.append_assoc]

/-- A token list satisfying the output invariant is a fixed point of the
simplifier loop. -/
theorem simplifyGo_of_simpOut :
    ∀ (toks : List (List Char)), SimpOut toks →
      simplifyGo toks.length toks 0 none 0 [] = toks := by
  intro toks hso
  obtain ⟨hOK, hwp, hadj⟩ := hso
  cases toks with
  | nil => rfl
  | cons T0 rest =>
    obtain ⟨w0, t0, hshape0, hwne0, hwall0, ht20, htp0, hth0, hnl0, hcanon0⟩ := hOK T0 (by simp)
    have htne0 : t0 ≠ [] := by
      intro he
      rw [he] at ht20
      simp at ht20
    have hmt0 : matchModeTime T0 = some (w0, t0) := by
      rw [hshape0, token_assoc]
      exact matchModeTime_shape hwne0 hwall0 htp0 hnl0 htne0
    have hmode0 : tokMode T0 = w0 := by
      rw [hshape0]
      exact tokMode_token hwall0 t0
    rw [simplifyGo_matched hmt0]
    by_cases hwalk0 : w0 = walkingCh
    · rw [if_pos hwalk0, if_pos (Or.inl rfl)]
      rw [show ([] : List (List Char)) ++ flushOut none 0 ++ [T0] = [T0] from rfl]
      cases rest with
      | nil =>
        rw [simplifyGo_nil_eq]
        rfl
      | cons T1 rest2 =>
        obtain ⟨w1, t1, hshape1, hwne1, hwall1, ht21, htp1, hth1, hnl1, hcanon1⟩ :=
          hOK T1 (by simp)
        have htne1 : t1 ≠ [] := by
          intro he
          rw [he] at ht21
          simp at ht21
        have hmt1 : matchModeTime T1 = some (w1, t1) := by
          rw [hshape1, token_assoc]
          exact matchModeTime_shape hwne1 hwall1 htp1 hnl1 htne1
        have hmode1 : tokMode T1 = w1 := by
          rw [hshape1]
          exact tokMode_token hwall1 t1
        rw [simplifyGo_matched hmt1]
        by_cases hwalk1 : w1 = walkingCh
        · have h12 : rest2 = [] := by
            have hwalkpos := hwp 1 (by simp only [List.length_cons]; omega)
              (by rw [show (T0 :: T1 :: rest2).getD 1 ([] : List Char) = T1 from rfl, hmode1]
                  exact hwalk1)
            rcases hwalkpos with h | h
            · exact absurd h (by omega)
            · simp only [List.length_cons] at h
              rw [← List.length_eq_zero]
              omega
          subst h12
          rw [if_pos hwalk1, if_pos (Or.inr (by simp))]
          rw [simplifyGo_nil_eq]
          rfl
        · rw [if_neg hwalk1, if_neg (by simp)]
          have hOK2 : ∀ tok ∈ rest2, TokOK tok := fun tok h => hOK tok (by simp [h])
          have hnw2 : ∀ k, k + 1 < rest2.length → tokMode (rest2.getD k []) ≠ walkingCh := by
            intro k hk hwk
            have hb : k + 1 + 1 < (T0 :: T1 :: rest2).length := by
              simp only [List.length_cons]
              omega
            have h1 := hwp (k + 1 + 1) hb
              (by rw [List.getD_cons_succ, List.getD_cons_succ]; exact hwk)
            simp only [List.length_cons] at h1
            omega
          have hdist2 : ∀ k, k + 1 < rest2.length →
              tokMode (rest2.getD k []) ≠ tokMode (rest2.getD (k + 1) []) := by
            intro k hk
            by_cases hw2 : tokMode (rest2.getD (k + 1) []) = walkingCh
            · intro he
              exact hnw2 k hk (he.trans hw2)
            · have hb : (k + 1 + 1) + 1 < (T0 :: T1 :: rest2).length := by
                simp only [List.length_cons]
                omega
              have h1 := hadj (k + 1 + 1) hb
                (by rw [List.getD_cons_succ, List.getD_cons_succ]; exact hnw2 k hk)
                (by rw [List.getD_cons_succ, List.getD_cons_succ]; exact hw2)
              rw [List.getD_cons_succ, List.getD_cons_succ, List.getD_cons_succ,
                List.getD_cons_succ] at h1
              exact h1
          have hhead2 : rest2 ≠ [] → w1 ≠ tokMode (rest2.getD 0 []) := by
            intro hne
            by_cases hw2 : tokMode (rest2.getD 0 []) = walkingCh
            · rw [hw2]
              exact hwalk1
            · have hb : (0 + 1) + 1 < (T0 :: T1 :: rest2).length := by
                simp only [List.length_cons]
                have := List.length_pos.mpr hne
                omega
              have h1 := hadj (0 + 1) hb
                (by rw [List.getD_cons_succ, List.getD_cons_zero, hmode1]; exact hwalk1)
                (by rw [List.getD_cons_succ, List.getD_cons_succ]; exact hw2)
              rw [List.getD_cons_succ, List.getD_cons_zero, List.getD_cons_succ,
                List.getD_cons_succ, hmode1] at h1
              exact h1
          refine (simplifyGo_canonical_run _ rest2 _ w1 (convCh t1)
            ([T0] ++ flushOut none 0) ?_ ?_ hOK2 hnw2 hdist2 hhead2).trans ?_
          · omega
          · simp only [List.length_cons]
            omega
          · rw [show ([T0] : List (List Char)) ++ flushOut none 0 = [T0] from rfl]
            rw [← hcanon1 hwalk1, ← hshape1]
            rfl
    · rw [if_neg hwalk0, if_neg (by simp)]
      have hOK1 : ∀ tok ∈ rest, TokOK tok := fun tok h => hOK tok (by simp [h])
      have hnw1 : ∀ k, k + 1 < rest.length → tokMode (rest.getD k []) ≠ walkingCh := by
        intro k hk hwk
        have hb : k + 1 < (T0 :: rest).length := by
          simp only [List.length_cons]
          omega
        have h1 := hwp (k + 1) hb (by rw [List.getD_cons_succ]; exact hwk)
        simp only [List.length_cons] at h1
        omega
      have hdist1 : ∀ k, k + 1 < rest.length →
          tokMode (rest.getD k []) ≠ tokMode (rest.getD (k + 1) []) := by
        intro k hk
        by_cases hw2 : tokMode (rest.getD (k + 1) []) = walkingCh
        · intro he
          exact hnw1 k hk (he.trans hw2)
        · have hb : (k + 1) + 1 < (T0 :: rest).length := by
            simp only [List.length_cons]
            omega
          have h1 := hadj (k + 1) hb
            (by rw [List.getD_cons_succ]; exact hnw1 k hk)
            (by rw [List.getD_cons_succ]; exact hw2)
          rw [List.getD_cons_succ, List.getD_cons_succ] at h1
          exact h1
      have hhead1 : rest ≠ [] → w0 ≠ tokMode (rest.getD 0 []) := by
        intro hne
        by_cases hw2 : tokMode (rest.getD 0 []) = walkingCh
        · rw [hw2]
          exact hwalk0
        · have hb : 0 + 1 < (T0 :: rest).length := by
            simp only [List.length_cons]
            have := List.length_pos.mpr hne
            omega
          have h1 := hadj 0 hb
            (by rw [List.getD_cons_zero, hmode0]; exact hwalk0)
            (by rw [List.getD_cons_succ]; exact hw2)
          rw [List.getD_cons_zero, List.getD_cons_succ, hmode0] at h1
          exact h1
      refine (simplifyGo_canonical_run _ rest _ w0 (convCh t0)
        ([] ++ flushOut none 0) ?_ ?_ hOK1 hnw1 hdist1 hhead1).trans ?_
      · omega
      · simp only [List.length_cons]
        omega
      · rw [show ([] : List (List Char)) ++ flushOut none 0 = ([] : List (List Char)) from rfl]
        rw [← hcanon0 hwalk0, ← hshape0]
        rfl

/-! ## Re-scanning a joined output recovers the token list -/

theorem token_append (w t S : List Char) :
    (w ++ '(' :: t ++ [')']) ++ S = w ++ '(' :: (t ++ ')' :: S) := by
  simp [List.append_assoc]

theorem findSegs_joinArrow :
    ∀ (toks : List (List Char)), (∀ tok ∈ toks, GoodTok tok) →
      findSegs (joinArrow toks) = toks := by
  intro toks
  induction toks with
  | nil =>
    intro _
    rfl
  | cons tok rest ih =>
    intro hG
    obtain ⟨w, t, hshape, hw, hwall, ht2, htp, hth⟩ := hG tok (by simp)
    cases rest with
    | nil =>
      show findSegs tok = [tok]
      rw [hshape]
      conv_lhs => rw [token_assoc]
      rw [findSegs_token hw hwall ht2 htp hth []]
      rfl
    | cons tok2 rest2 =>
      show findSegs (tok ++ ' ' :: '-' :: '>' :: ' ' :: joinArrow (tok2 :: rest2)) =
        tok :: tok2 :: rest2
      rw [hshape]
      conv_lhs => rw [token_append]
      rw [findSegs_token hw hwall ht2 htp hth _, findSegs_arrow,
        ih (fun tok h => hG tok (by simp [h]))]

/-! ## The accumulated total is irrelevant while no mode accumulates -/

theorem simplifyGo_none_tt_irrel (n : ℕ) :
    ∀ (segs : List (List Char)) (i tt tt' : ℕ) (out : List (List Char)),
      simplifyGo n segs i none tt out = simplifyGo n segs i none tt' out := by
  intro segs
  induction segs with
  | nil =>
    intro i tt tt' out
    rfl
  | cons seg rest ih =>
    intro i tt tt' out
    cases hmt : matchModeTime seg with
    | none => rw [simplifyGo_skip hmt, simplifyGo_skip hmt, ih]
    | some p =>
      obtain ⟨mode, time⟩ := p
      rw [simplifyGo_matched hmt, simplifyGo_matched hmt]
      by_cases hw : mode = walkingCh
      · rw [if_pos hw, if_pos hw]
        by_cases hb : i = 0 ∨ i = n - 1
        · rw [if_pos hb, if_pos hb]
          rfl
        · rw [if_neg hb, if_neg hb, ih]
      · rw [if_neg hw, if_neg hw, if_neg (by simp), if_neg (by simp)]
        rfl

/-! ## The simplifier's output invariant, at the top level -/

theorem simpOut_run (r : String) :
    SimpOut (simplifyGo (findSegs r.data).length (findSegs r.data) 0 none 0 []) := by
  refine simplifyGo_simpOut (findSegs r.data).length (findSegs r.data) 0 none 0 []
    (Nat.zero_add _) (findSegs_good r.data) ?_ ?_ ?_ ?_ ?_ ?_
  · intro tok h
    simp at h
  · intro k hk
    simp at hk
  · intro k hk
    simp at hk
  · intro m h
    simp at h
  · intro _
    exact Or.inl rfl
  · intro _
    exact ⟨rfl, rfl⟩

/-- The tokens `re.findall` recovers from a simplified route are exactly the
tokens the simplifier loop emitted. -/
theorem simplify_trip_out (r : String) :
    findSegs (simplify_trip r).data =
      simplifyGo (findSegs r.data).length (findSegs r.data) 0 none 0 [] := by
  show findSegs (joinArrow (simplifyGo (findSegs r.data).length (findSegs r.data) 0 none 0 []))
    = simplifyGo (findSegs r.data).length (findSegs r.data) 0 none 0 []
  exact findSegs_joinArrow _ (fun tok h => goodTok_of_tokOK ((simpOut_run r).1 tok h))

/-! # Claim theorems -/

/-- C1 (amended): for every nonnegative minute value `m`, the
integer-accumulating pair round-trips, `convert_time_to_minutes
(convert_minutes_to_time m) = m`, and hence
`parse(format(parse(text))) = parse(text)` for every text under that codec.
(The float-preserving pair does not round-trip; see the counterexample.) -/
theorem C1_integer_codec_round_trip :
    (∀ m : ℕ, convert_time_to_minutes (convert_minutes_to_time m) = m) ∧
    (∀ s : String,
      convert_time_to_minutes (convert_minutes_to_time (convert_time_to_minutes s)) =
        convert_time_to_minutes s) :=
  ⟨fun m => convCh_convMinCh m, fun _ => convCh_convMinCh _⟩

/-- C1 counterexample: the float-preserving pair fails the round trip at
`m = 2.5`: `format_minutes_to_string (5/2) = "2.5분"`, but
`parse_duration_to_minutes "2.5분" = 5 ≠ 5/2` (the integer-only minute
capture `(\d+)\s*분` matches the `5분` suffix). -/
theorem C1_float_codec_round_trip_fails :
    format_minutes_to_string (5 / 2) = "2.5분" ∧
    parse_duration_to_minutes (format_minutes_to_string (5 / 2)) = 5 ∧
    parse_duration_to_minutes (format_minutes_to_string (5 / 2)) ≠ 5 / 2 := by
  refine ⟨?_, ?_, ?_⟩ <;> with_unfolding_all decide

/-- C7 (amended): both parses recognise an optional integer-valued hour
marker; the minute marker's value may carry a fractional component only in
the integer-accumulating variant's capture, which is then truncated
(`"2.5분"` parses to `2` there), while the float-preserving variant
captures an integer minute run only (`"2.5분"` parses to `5.0`); a missing
marker contributes `0`, and a text containing neither marker (including
the empty string) parses to `0` in both variants without error. -/
theorem C7_duration_parse_markers :
    convert_time_to_minutes "1시간 8분" = 68 ∧
    parse_duration_to_minutes "1시간 30분" = 90 ∧
    convert_time_to_minutes "1시간" = 60 ∧
    parse_duration_to_minutes "2시간" = 120 ∧
    convert_time_to_minutes "2.5분" = 2 ∧
    parse_duration_to_minutes "2.5분" = 5 ∧
    convert_time_to_minutes "" = 0 ∧
    parse_duration_to_minutes "" = 0 ∧
    (∀ s : String, '시' ∉ s.data → '분' ∉ s.data →
      convert_time_to_minutes s = 0 ∧ parse_duration_to_minutes s = 0) := by
  refine ⟨by with_unfolding_all decide, by with_unfolding_all decide,
    by with_unfolding_all decide, by with_unfolding_all decide,
    by with_unfolding_all decide, by with_unfolding_all decide,
    by with_unfolding_all decide, by with_unfolding_all decide, ?_⟩
  intro s h1 h2
  constructor
  · show convCh s.data = 0
    rw [convCh_eq, containsSub_eq_false h1, containsSub_eq_false h2]
    simp
  · show parseDurCh s.data = 0
    rw [parseDurCh_eq, searchNumThen_none h1, searchNumThen_none h2]
    simp

/-- C7 witness: the markerless-text clause at the concrete text `"no markers"`. -/
theorem C7_duration_parse_markers_witness :
    convert_time_to_minutes "no markers" = 0 ∧ parse_duration_to_minutes "no markers" = 0 :=
  C7_duration_parse_markers.2.2.2.2.2.2.2.2 "no markers" (by decide) (by decide)

/-- C7 counterexample: in the float-preserving variant, `"2.5분"` does not
parse to `2.5` minutes. -/
theorem C7_fractional_minute_counterexample :
    parse_duration_to_minutes "2.5분" ≠ 5 / 2 := by
  with_unfolding_all decide

/-- C3: for every route string, the minutes of the ascending half plus the
minutes of the descending half produced by `split_route_in_half` equal the
total minutes of the input route, within `1e-6` (in the rational model the
conservation is exact). -/
theorem C3_split_conservation (r : String) :
    |(((splitHalves r).1.map Prod.snd).sum + ((splitHalves r).2.map Prod.snd).sum) -
        routeTotal r| < 1 / 1000000 := by
  have h := splitGo_conservation (routeTotal r / 2) (parseSteps r.data) 0 false [] []
  unfold splitHalves
  rw [h]
  have hr : routeTotal r = ((parseSteps r.data).map Prod.snd).sum := rfl
  rw [hr]
  simp only [List.map_nil, List.sum_nil, zero_add]
  simp only [sub_self, abs_zero]
  norm_num

/-- C4 (amended): for a route whose total duration is `0`, the first
segment (when one exists) satisfies the within-epsilon-of-half branch and
goes to ascending, while every remaining segment goes to descending;
the descending serialisation is `"N/A"` exactly when no segment remains —
so the empty route yields `("", "N/A")`, but a multi-segment zero-duration
route has a non-`"N/A"` descending half. -/
theorem C4_zero_total_split (r : String) (h : routeTotal r = 0) :
    splitHalves r = ((parseSteps r.data).take 1, (parseSteps r.data).drop 1) ∧
    split_route_in_half r =
      (⟨joinArrow (((parseSteps r.data).take 1).map Prod.fst)⟩,
        if (parseSteps r.data).drop 1 = [] then "N/A"
        else ⟨joinArrow (((parseSteps r.data).drop 1).map Prod.fst)⟩) := by
  have hzero : ∀ p ∈ parseSteps r.data, Prod.snd p = 0 := by
    intro p hp
    have := all_zero_of_sum_zero ((parseSteps r.data).map Prod.snd)
      (by
        intro x hx
        obtain ⟨q, hq, hxq⟩ := List.mem_map.mp hx
        rw [← hxq]
        exact parseSteps_snd_nonneg r.data hq)
      h p.2 (List.mem_map.mpr ⟨p, hp, rfl⟩)
    exact this
  have hhalf : routeTotal r / 2 = 0 := by rw [h]; norm_num
  have hmain : splitHalves r = ((parseSteps r.data).take 1, (parseSteps r.data).drop 1) := by
    unfold splitHalves
    rw [hhalf]
    cases hps : parseSteps r.data with
    | nil => simp [splitGo]
    | cons p rest =>
      obtain ⟨tx, d⟩ := p
      have hd : d = 0 := by
        have := hzero (tx, d) (by rw [hps]; simp)
        simpa using this
      subst hd
      rw [splitGo_cons_eq]
      rw [if_neg (by simp), if_neg (by simp), if_pos (by norm_num)]
      rw [splitGo_past]
      simp
  refine ⟨hmain, ?_⟩
  unfold split_route_in_half
  rw [hmain]

/-- C4 witness: the amended claim at the one-segment zero-duration route
`"q(0분)"`. -/
theorem C4_zero_total_split_witness :
    splitHalves "q(0분)" = ([("q(0분)".data, 0)], []) ∧
    split_route_in_half "q(0분)" = ("q(0분)", "N/A") := by
  have h := C4_zero_total_split "q(0분)" (by with_unfolding_all decide)
  constructor
  · rw [h.1]
    with_unfolding_all decide
  · rw [h.2]
    with_unfolding_all decide

/-- C4 counterexample: `"a(0분) -> b(0분)"` has total duration `0`, yet
`split_route_in_half` does not put the entire route into ascending — the
second segment goes to descending, which is serialised as `"b(0분)"`,
not the sentinel `"N/A"`. -/
theorem C4_zero_total_multi_segment_counterexample :
    routeTotal "a(0분) -> b(0분)" = 0 ∧
    split_route_in_half "a(0분) -> b(0분)" = ("a(0분)", "b(0분)") ∧
    (split_route_in_half "a(0분) -> b(0분)").2 ≠ "N/A" := by
  refine ⟨?_, ?_, ?_⟩ <;> with_unfolding_all decide

/-- C5: when a segment straddles the midpoint (the not-yet-reached and
within-epsilon tests both fail), with `remain = half - elapsed`: if
`remain < 0` the whole segment goes to descending; otherwise the segment is
split into an ascending part of duration `remain` and a descending part of
duration `duration - remain`, and that descending remainder is necessarily
strictly positive under the branch's guards (so the `> 0` emission test
always passes there, and a zero-length remainder is indeed never emitted).
In particular the split of `"walking(7분) -> subway(6분) -> walking(6분)"`
is ascending `"walking(7분) -> subway(2.5분)"`, descending
`"subway(3.5분) -> walking(6분)"`. -/
theorem C5_straddling_segment_split :
    (split_route_in_half "walking(7분) -> subway(6분) -> walking(6분)" =
      ("walking(7분) -> subway(2.5분)", "subway(3.5분) -> walking(6분)")) ∧
    (∀ (half : ℚ) (tx : List Char) (d : ℚ) (rest : List (List Char × ℚ)) (acc : ℚ)
        (asc desc : List (List Char × ℚ)),
      ¬ acc + d < half → ¬ |acc + d - half| < 1 / 1000000000 →
        (half - acc < 0 →
          splitGo half ((tx, d) :: rest) acc false asc desc =
            splitGo half rest acc true asc (desc ++ [(tx, d)])) ∧
        (0 ≤ half - acc →
          0 < d - (half - acc) ∧
          splitGo half ((tx, d) :: rest) acc false asc desc =
            splitGo half rest acc true
              (asc ++ [(mkSplitText tx (half - acc), half - acc)])
              (desc ++ [(mkSplitText tx (d - (half - acc)), d - (half - acc))]))) := by
  constructor
  · with_unfolding_all decide
  · intro half tx d rest acc asc desc h2 h3
    constructor
    · intro h4
      rw [splitGo_cons_eq, if_neg (by simp), if_neg h2, if_neg h3, if_pos h4]
    · intro h4
      have hdp : 0 < d - (half - acc) := by
        have hge : half ≤ acc + d := le_of_not_lt h2
        rcases lt_or_eq_of_le hge with hlt | heq
        · linarith
        · exfalso
          apply h3
          rw [← heq]
          simp only [sub_self, abs_zero]
          norm_num
      refine ⟨hdp, ?_⟩
      rw [splitGo_cons_eq, if_neg (by simp), if_neg h2, if_neg h3,
        if_neg (not_lt.mpr h4), if_pos hdp]

/-- C5 witness: the straddle branch at `half = 19/2`, `elapsed = 7`,
segment `subway(6분)` — the subway segment of Scenario B. -/
theorem C5_straddling_segment_split_witness :
    0 < (6 : ℚ) - (19 / 2 - 7) ∧
    splitGo (19 / 2) [("subway(6분)".data, (6 : ℚ))] 7 false [] [] =
      splitGo (19 / 2) [] 7 true
        ([] ++ [(mkSplitText "subway(6분)".data (19 / 2 - 7), 19 / 2 - 7)])
        ([] ++ [(mkSplitText "subway(6분)".data (6 - (19 / 2 - 7)), 6 - (19 / 2 - 7))]) :=
  (C5_straddling_segment_split.2 (19 / 2) "subway(6분)".data 6 [] 7 [] []
    (by with_unfolding_all decide) (by with_unfolding_all decide)).2
    (by with_unfolding_all decide)

/-- C10: `split_route_in_half` performs no token-shape validation — the
step texts are exactly the non-empty stripped substrings between `->`
delimiters; a step in which the parenthesis search finds nothing is
assigned duration `0.0`; and every zero-duration step text is reproduced
unchanged in one of the two output halves (a zero-duration step can never
straddle the midpoint). -/
theorem C10_splitter_keeps_unvalidated_tokens :
    (∀ r : String, (parseSteps r.data).map Prod.fst =
        ((splitArrow r.data).map stripWs).filter (fun s => s ≠ [])) ∧
    (∀ r : String, ∀ p ∈ parseSteps r.data, searchParen p.1 = none → p.2 = 0) ∧
    (∀ r : String, ∀ p ∈ parseSteps r.data, p.2 = 0 →
      p.1 ∈ (splitHalves r).1.map Prod.fst ∨ p.1 ∈ (splitHalves r).2.map Prod.fst) := by
  refine ⟨?_, ?_, ?_⟩
  · intro r
    unfold parseSteps
    rw [List.map_map]
    exact List.map_id _
  · intro r p hp hnone
    have hs := parseSteps_snd r.data hp
    rw [hs]
    unfold stepDur
    rw [hnone]
  · intro r p hp hzero
    have hhalf : (0 : ℚ) ≤ routeTotal r / 2 := by
      have := routeTotal_nonneg r
      linarith
    have hpmem : (p.1, (0 : ℚ)) ∈ parseSteps r.data := by
      have : p = (p.1, (0 : ℚ)) := by
        rw [← hzero]
      rw [← this]
      exact hp
    exact splitGo_zero_step_kept (routeTotal r / 2) (parseSteps r.data) 0 false [] []
      (fun _ => hhalf) p.1 hpmem

/-- C10 witness: the route `"foo -> bar(6분)"`, whose first chunk `"foo"`
has no parenthesised duration: it is kept, given duration `0`, and appears
verbatim in an output half. -/
theorem C10_splitter_keeps_unvalidated_tokens_witness :
    "foo".data ∈ (splitHalves "foo -> bar(6분)").1.map Prod.fst ∨
    "foo".data ∈ (splitHalves "foo -> bar(6분)").2.map Prod.fst :=
  C10_splitter_keeps_unvalidated_tokens.2.2 "foo -> bar(6분)" ("foo".data, 0)
    (by with_unfolding_all decide) rfl

/-- C8: for every route-half string the number of transitions emitted is
`max 0 (number of extracted modes - 1)` — in particular `0` with fewer than
two modes — and the aggregate count of the `Counter` for a key is the sum
of the per-row contributions. -/
theorem C8_transition_count_conservation :
    (∀ s : String,
      ((rowTransitions s).length : ℤ) = max 0 ((extractModes s.data).length - 1)) ∧
    (∀ (rows : List String) (key : List Char),
      extract_transitions rows key =
        (rows.map (fun r => (rowTransitions r).count key)).sum) ∧
    (∀ rows : List String,
      (rows.flatMap rowTransitions).length =
        (rows.map (fun r => (rowTransitions r).length)).sum) := by
  refine ⟨rowTransitions_length, ?_, ?_⟩
  · intro rows key
    unfold extract_transitions
    induction rows with
    | nil => simp
    | cons r rest ih =>
      simp only [List.flatMap_cons, List.count_append, List.map_cons, List.sum_cons, ih]
  · intro rows
    induction rows with
    | nil => simp
    | cons r rest ih =>
      simp only [List.flatMap_cons, List.length_append, List.map_cons, List.sum_cons, ih]

/-- C2: `simplify_trip` is idempotent: applying the segment simplifier to
its own output is a no-op, for every route string, including the degenerate
all-walking and single-segment routes. -/
theorem C2_simplify_idempotent (r : String) :
    simplify_trip (simplify_trip r) = simplify_trip r := by
  show String.mk (joinArrow (simplifyGo (findSegs (simplify_trip r).data).length
    (findSegs (simplify_trip r).data) 0 none 0 [])) = simplify_trip r
  rw [simplify_trip_out r, simplifyGo_of_simpOut _ (simpOut_run r)]
  rfl

/-- C9: in the token sequence of a simplified route, a `walking` token
occurs only at the first or last position, and two adjacent tokens carry
the same mode only when that mode is `walking`, they are the first and last
tokens, and the output has exactly two tokens. -/
theorem C9_simplified_route_invariant (r : String) (k : ℕ) :
    (k < (findSegs (simplify_trip r).data).length →
      tokMode ((findSegs (simplify_trip r).data).getD k []) = walkingCh →
      k = 0 ∨ k = (findSegs (simplify_trip r).data).length - 1) ∧
    (k + 1 < (findSegs (simplify_trip r).data).length →
      tokMode ((findSegs (simplify_trip r).data).getD k []) =
        tokMode ((findSegs (simplify_trip r).data).getD (k + 1) []) →
      tokMode ((findSegs (simplify_trip r).data).getD k []) = walkingCh ∧
        k = 0 ∧ (findSegs (simplify_trip r).data).length = 2) := by
  have hso : SimpOut (findSegs (simplify_trip r).data) := by
    rw [simplify_trip_out r]
    exact simpOut_run r
  obtain ⟨hOK, hwp, hadj⟩ := hso
  constructor
  · exact fun hk hw => hwp k hk hw
  · intro hk heq
    by_cases hkw : tokMode ((findSegs (simplify_trip r).data).getD k []) = walkingCh
    · have hk0 : k = 0 := by
        rcases hwp k (by omega) hkw with h0 | h0
        · exact h0
        · omega
      have hk1w : tokMode ((findSegs (simplify_trip r).data).getD (k + 1) []) = walkingCh :=
        heq.symm.trans hkw
      rcases hwp (k + 1) hk hk1w with h1 | h1
      · omega
      · exact ⟨hkw, hk0, by omega⟩
    · exfalso
      have hk1w : tokMode ((findSegs (simplify_trip r).data).getD (k + 1) []) ≠ walkingCh := by
        intro hw
        exact hkw (heq.trans hw)
      exact hadj k hk hkw hk1w heq

theorem C9_simplified_route_invariant_witness :
    tokMode ((findSegs (simplify_trip "walking(5분) -> walking(3분)").data).getD 0 [])
      = walkingCh ∧
    tokMode ((findSegs (simplify_trip "walking(5분) -> walking(3분)").data).getD 0 []) =
      tokMode ((findSegs (simplify_trip "walking(5분) -> walking(3분)").data).getD 1 []) ∧
    (0 = 0 ∨ 0 = (findSegs (simplify_trip "walking(5분) -> walking(3분)").data).length - 1) ∧
    (0 = 0 ∧ (findSegs (simplify_trip "walking(5분) -> walking(3분)").data).length = 2) := by
  have hw : tokMode ((findSegs (simplify_trip "walking(5분) -> walking(3분)").data).getD 0 [])
      = walkingCh := by
    with_unfolding_all decide
  have heq : tokMode ((findSegs (simplify_trip "walking(5분) -> walking(3분)").data).getD 0 [])
      = tokMode ((findSegs (simplify_trip "walking(5분) -> walking(3분)").data).getD (0 + 1) []) := by
    with_unfolding_all decide
  have hlt : 0 < (findSegs (simplify_trip "walking(5분) -> walking(3분)").data).length := by
    with_unfolding_all decide
  have hlt2 : 0 + 1 < (findSegs (simplify_trip "walking(5분) -> walking(3분)").data).length := by
    with_unfolding_all decide
  refine ⟨hw, heq, ?_, ?_⟩
  · exact (C9_simplified_route_invariant "walking(5분) -> walking(3분)" 0).1 hlt hw
  · have h2 := (C9_simplified_route_invariant "walking(5분) -> walking(3분)" 0).2 hlt2 heq
    exact ⟨h2.2.1, h2.2.2⟩

/-- C6: the walking-boundary rule of the simplifier.  Scenario A evaluates
as specified; a matched `walking` segment at index 0 or the last index is
emitted verbatim after flushing the accumulating mode, while at an interior
index its duration is added to the running total (which feeds the
accumulating mode); when no mode is accumulating the running total is
irrelevant to the output, so interior walking time is silently dropped. -/
theorem C6_walking_boundary_rule :
    (simplify_trip "walking(5분) -> bus(15분) -> walking(3분) -> subway(20분) -> walking(2분)" =
      "walking(5분) -> bus(18분) -> subway(20분) -> walking(2분)") ∧
    (∀ (n : ℕ) (seg time : List Char) (rest : List (List Char)) (i : ℕ)
        (cm : Option (List Char)) (tt : ℕ) (out : List (List Char)),
      matchModeTime seg = some (walkingCh, time) →
        ((i = 0 ∨ i = n - 1) →
          simplifyGo n (seg :: rest) i cm tt out =
            simplifyGo n rest (i + 1) none 0 (out ++ flushOut cm tt ++ [seg])) ∧
        (¬(i = 0 ∨ i = n - 1) →
          simplifyGo n (seg :: rest) i cm tt out =
            simplifyGo n rest (i + 1) cm (tt + convCh time) out)) ∧
    (∀ (n : ℕ) (segs : List (List Char)) (i tt tt' : ℕ) (out : List (List Char)),
      simplifyGo n segs i none tt out = simplifyGo n segs i none tt' out) := by
  refine ⟨?_, ?_, simplifyGo_none_tt_irrel⟩
  · with_unfolding_all decide
  · intro n seg time rest i cm tt out hmt
    constructor
    · intro hb
      rw [simplifyGo_matched hmt, if_pos rfl, if_pos hb]
    · intro hb
      rw [simplifyGo_matched hmt, if_pos rfl, if_neg hb]

theorem C6_walking_boundary_rule_witness :
    matchModeTime ("walking(3분)").data = some (walkingCh, ['3', '분']) ∧
    ¬((1 : ℕ) = 0 ∨ 1 = 3 - 1) ∧
    simplifyGo 3 ["walking(3분)".data] 1 (some ['b', 'u', 's']) 15 [] =
      simplifyGo 3 [] (1 + 1) (some ['b', 'u', 's']) (15 + convCh ['3', '분']) [] := by
  have hmt : matchModeTime ("walking(3분)").data = some (walkingCh, ['3', '분']) := by
    decide
  have hni : ¬((1 : ℕ) = 0 ∨ 1 = 3 - 1) := by decide
  exact ⟨hmt, hni,
    (C6_walking_boundary_rule.2.1 3 "walking(3분)".data ['3', '분'] [] 1
      (some ['b', 'u', 's']) 15 [] hmt).2 hni⟩

end TripCore
